import Mathlib

/-!
Verification development for the diskus disk-usage scanner.

The traversal engine and the two aggregators are embedded from
`src/walk.rs`.  The size accessor (`filesize.rs`) and the identity
extractor (`unique_id.rs`) are not part of this source snapshot; they
are modelled from the specification (sections 4.1 and 4.2) and marked
as such in their doc comments.

Conventions of the embedding:
* `PathBuf` is modelled as a list of path components (`List String`);
  `child_entry.path()` appends the child's file name to the parent path.
* `u64` quantities are `Nat`; every arithmetic operation the Rust code
  performs on a `u64` is reduced modulo `2 ^ 64` (`U64MOD`).
* `HashSet<UniqueID>` is a list of ids (membership is what matters),
  `HashMap<PathBuf, u64>` is an association list updated in place.
* The filesystem seen by one scan is a forest of `FSEntry` trees: each
  root path is paired with the tree found at that path.  `read_dir`
  results are modelled inside the tree: `presentNoList` is an entry
  whose children cannot be listed, and a listing item with a `none`
  name is a child whose `DirEntry` was yielded as an `Err` (which
  `flatten()` silently skips).
-/

namespace Diskus

/-- A filesystem path, as a list of components (models `PathBuf`). -/
abbrev FsPath := List String

/-- Device and inode pair (models `unique_id::UniqueID`). -/
structure UniqueID where
  device : Nat
  inode : Nat
deriving DecidableEq

/-- The metadata the walk reads once per entry (`symlink_metadata`):
whether the entry is a directory, its logical byte length, the bytes
actually allocated for it, and the optional device/inode identity. -/
structure Metadata where
  isDir : Bool
  len : Nat
  allocated : Nat
  uniqueId : Option UniqueID
deriving DecidableEq

/-- Modelled from the spec: the identity extractor (section 4.2),
`identity(metadata) -> optional (device, inode)`, a pure function of the
metadata that returns nothing when the platform cannot supply device and
inode.  Its source file `unique_id.rs` is not in this snapshot. -/
def generate_unique_id (m : Metadata) : Option UniqueID :=
  m.uniqueId

/-- The two size-computation modes (models `filesize::FilesizeType`). -/
inductive FilesizeType where
  | DiskUsage : FilesizeType
  | ApparentSize : FilesizeType
deriving DecidableEq

/-- Modelled from the spec: the size accessor (section 4.1),
`size(metadata) -> non-negative integer`; disk-usage mode returns the
storage actually allocated for the entry, apparent-size mode returns the
logical byte length reported by metadata.  Its source file `filesize.rs`
is not in this snapshot. -/
def FilesizeType.size (t : FilesizeType) (m : Metadata) : Nat :=
  match t with
  | .DiskUsage => m.allocated
  | .ApparentSize => m.len

/-- The per-entry error descriptors (models `walk::Error`). -/
inductive Error where
  | NoMetadataForPath : FsPath → Error
  | CouldNotReadDir : FsPath → Error
deriving DecidableEq

/-- The channel messages (models `walk::Message`).  `SizeEntry` carries
the optional identity, the OWNING ROOT path and the size contribution;
`FinishedEntry` carries the finished root. -/
inductive Message where
  | SizeEntry : Option UniqueID → FsPath → Nat → Message
  | FinishedEntry : FsPath → Message
  | Error : Error → Message
deriving DecidableEq

mutual

/-- One filesystem object as the scan can observe it.
`inaccessible`: `symlink_metadata` fails.  `presentNoList`: metadata is
readable but, should the walk try to list children (`is_dir`),
`read_dir` fails.  `presentList`: metadata readable and `read_dir`
returns the given items. -/
inductive FSEntry : Type where
  | inaccessible : FSEntry
  | presentNoList : Metadata → FSEntry
  | presentList : Metadata → Items → FSEntry

/-- The result list of a successful `read_dir`: each item is either a
successfully yielded `DirEntry` (`cons (some name) child rest`) or an
`Err` item (`cons none child rest`) that `flatten()` silently skips;
`child` records the filesystem object the failed item would have led
to. -/
inductive Items : Type where
  | nil : Items
  | cons : Option String → FSEntry → Items → Items

end

end Diskus

namespace Diskus

/-- Concatenation of listing results. -/
def Items.append : Items → Items → Items
  | .nil, ys => ys
  | .cons n c rest, ys => .cons n c (rest.append ys)

mutual

/-- Messages sent while processing one entry of the `entries` slice of
`walk` (src/walk.rs lines 115-157): on metadata success, send one
`SizeEntry` (identity, owning root, size); if the entry is a directory,
either recurse into the listed children or send a `CouldNotReadDir`
error (the subsequent recursive call on the empty child list sends
nothing); on metadata failure, send `NoMetadataForPath`.  Recursive
calls happen at depth ≥ 1, where `walk` appends no `FinishedEntry`, so
the depth argument is dropped here and restored in `walk` below. -/
def walkEntry (t : FilesizeType) (root p : FsPath) : FSEntry → List Message
  | .inaccessible => [Message.Error (Error.NoMetadataForPath p)]
  | .presentNoList meta =>
      Message.SizeEntry (generate_unique_id meta) root (t.size meta) ::
        (if meta.isDir then [Message.Error (Error.CouldNotReadDir p)] else [])
  | .presentList meta items =>
      Message.SizeEntry (generate_unique_id meta) root (t.size meta) ::
        (if meta.isDir then walkItems t root p items else [])

/-- Messages sent for the children collected from a `read_dir` listing:
`Err` items are skipped by `flatten()` and contribute nothing; `Ok`
items are pushed as `child_entry.path()` and walked in order. -/
def walkItems (t : FilesizeType) (root p : FsPath) : Items → List Message
  | .nil => []
  | .cons none _ rest => walkItems t root p rest
  | .cons (some n) c rest =>
      walkEntry t root (p ++ [n]) c ++ walkItems t root p rest

end

/-- Models `walk` (src/walk.rs lines 106-161) applied to a slice of
entries: the messages of every entry, followed by `FinishedEntry root`
exactly when `depth == 0`. -/
def walk (t : FilesizeType) (root : FsPath) (depth : Nat)
    (entries : List (FsPath × FSEntry)) : List Message :=
  (entries.map fun pe => walkEntry t root pe.1 pe.2).flatten ++
    (if depth = 0 then [Message.FinishedEntry root] else [])

/-- The per-root message sequences of one scan: `root_walk`
(src/walk.rs lines 94-104) starts `walk(tx, &[entry], entry, 0, t)` for
every root, so each root's own sequence is a depth-0 walk of the
singleton slice holding that root. -/
def scanTraces (t : FilesizeType) (roots : List (FsPath × FSEntry)) :
    List (List Message) :=
  roots.map fun re => walk t re.1 0 [re]

/-- One particular linearization of the scan's message stream: the
per-root traces in root order (realized e.g. by a single-thread pool). -/
def scanMessages (t : FilesizeType) (roots : List (FsPath × FSEntry)) :
    List Message :=
  (scanTraces t roots).flatten

/-- Modulus of `u64` arithmetic. -/
def U64MOD : Nat := 2 ^ 64

/-- The state of the batch receiver thread of `Walk::run`
(src/walk.rs lines 185-218): the seen-id set, the per-root totals and
the collected error messages. -/
structure AggState where
  ids : List UniqueID
  sizes : List (FsPath × Nat)
  errors : List Error
deriving DecidableEq

/-- Lookup of a root's accumulated total (models `HashMap` lookup). -/
def findSize : List (FsPath × Nat) → FsPath → Option Nat
  | [], _ => none
  | kv :: rest, r => if kv.1 = r then some kv.2 else findSize rest r

/-- Models `sizes.entry(root).and_modify(|tot| *tot += size).or_insert(size)`:
a wrapping `u64` addition on the existing total, or insertion of the
size itself. -/
def addSize (sizes : List (FsPath × Nat)) (root : FsPath) (size : Nat) :
    List (FsPath × Nat) :=
  if (findSize sizes root).isSome then
    sizes.map fun kv => if kv.1 = root then (kv.1, (kv.2 + size) % U64MOD) else kv
  else
    sizes ++ [(root, size)]

/-- One step of the batch aggregator (the `match msg` of `Walk::run`,
src/walk.rs lines 190-211): a `SizeEntry` with a present id is counted
only if `ids.insert(unique_id)` reports it as new; an absent id is
always counted; an `Error` is pushed onto the error list; a
`FinishedEntry` is ignored. -/
def processMessage (st : AggState) : Message → AggState
  | Message.SizeEntry (some id) root size =>
      if id ∈ st.ids then st
      else { st with ids := id :: st.ids, sizes := addSize st.sizes root size }
  | Message.SizeEntry none root size =>
      { st with sizes := addSize st.sizes root size }
  | Message.Error e => { st with errors := st.errors ++ [e] }
  | Message.FinishedEntry _ => st

/-- The batch aggregator run over a message stream, from the empty
state (`ids`, `sizes`, `error_messages` all start empty). -/
def runAggregator (msgs : List Message) : AggState :=
  msgs.foldl processMessage ⟨[], [], []⟩

/-- A root's running total as `Walk::run` would report it (`0` stands
for "no entry", used only where the claim speaks of totals). -/
def getTotal (st : AggState) (r : FsPath) : Nat :=
  (findSize st.sizes r).getD 0

/-- The batch scan of a forest: aggregator state after the canonical
linearization of the stream. -/
def scanRun (t : FilesizeType) (roots : List (FsPath × FSEntry)) : AggState :=
  runAggregator (scanMessages t roots)

/-- One step of the streaming receiver of `Walk::run_and_print`
(src/walk.rs lines 264-314), restricted to its observable size output:
`SizeEntry` updates `ids`/`sizes` exactly as the batch receiver does;
on `FinishedEntry(path)` the value `sizes.get(&path)` is handed to
`print_result`, which prints a result line exactly when that value is
present; `Error` produces no result line (it only prints to stderr or
sets the taint flag). -/
def printStep (acc : AggState × List (FsPath × Nat)) (m : Message) :
    AggState × List (FsPath × Nat) :=
  match m with
  | Message.FinishedEntry p =>
      (acc.1,
        match findSize acc.1.sizes p with
        | some s => acc.2 ++ [(p, s)]
        | none => acc.2)
  | Message.SizeEntry id root size =>
      (processMessage acc.1 (Message.SizeEntry id root size), acc.2)
  | Message.Error _ => (acc.1, acc.2)

/-- The result lines printed by the streaming receiver over a stream. -/
def runAndPrintOutputs (msgs : List Message) : List (FsPath × Nat) :=
  (msgs.foldl printStep (⟨[], [], []⟩, [])).2

/-- `Shuffle xs ys zs`: `zs` is an order-preserving interleaving of `xs`
and `ys` (the possible channel arrival orders of two concurrent
producers' message sequences). -/
inductive Shuffle {α : Type} : List α → List α → List α → Prop where
  | nil : Shuffle [] [] []
  | left {x : α} {xs ys zs : List α} :
      Shuffle xs ys zs → Shuffle (x :: xs) ys (x :: zs)
  | right {y : α} {xs ys zs : List α} :
      Shuffle xs ys zs → Shuffle xs (y :: ys) (y :: zs)

/-- `NShuffle ts σ`: the stream `σ` is an interleaving of the per-root
traces `ts` — the concurrency model of the unbounded channel: each
trace arrives in its own order, traces interleave arbitrarily. -/
inductive NShuffle {α : Type} : List (List α) → List α → Prop where
  | nil : NShuffle [] []
  | cons {t : List α} {ts : List (List α)} {σ σ' : List α} :
      Shuffle t σ' σ → NShuffle ts σ' → NShuffle (t :: ts) σ

/-- The root a message is attributed to, if any: `SizeEntry` and
`FinishedEntry` carry their root, `Error` carries none. -/
def Message.rootLabel : Message → Option FsPath
  | Message.SizeEntry _ r _ => some r
  | Message.FinishedEntry r => some r
  | Message.Error _ => none

/-- Whether a message is attributed to root `r`. -/
def belongsTo (r : FsPath) (m : Message) : Bool :=
  decide (m.rootLabel = some r)

/-- The present unique ids carried by a stream's `SizeEntry` messages,
in stream order. -/
def presentIds (msgs : List Message) : List UniqueID :=
  msgs.filterMap fun m =>
    match m with
    | Message.SizeEntry (some id) _ _ => some id
    | _ => none

/-- The present unique ids of the `SizeEntry` messages attributed to
root `r`, in stream order. -/
def rIds (r : FsPath) (msgs : List Message) : List UniqueID :=
  msgs.filterMap fun m =>
    match m with
    | Message.SizeEntry (some id) q _ => if q = r then some id else none
    | _ => none

/-- The sizes of the `SizeEntry` messages attributed to root `r`, in
stream order. -/
def rSizes (r : FsPath) (msgs : List Message) : List Nat :=
  msgs.filterMap fun m =>
    match m with
    | Message.SizeEntry _ q s => if q = r then some s else none
    | _ => none

mutual

/-- A tree is fully readable when no entry in it is inaccessible, every
directory's children can be listed, and every listing item is yielded
successfully (listings attached to non-directories are irrelevant: the
walk never reads them). -/
def FSEntry.readable : FSEntry → Bool
  | .inaccessible => false
  | .presentNoList meta => !meta.isDir
  | .presentList meta items => !meta.isDir || itemsReadable items

/-- Readability of every child of a directory listing. -/
def itemsReadable : Items → Bool
  | .nil => true
  | .cons none _ _ => false
  | .cons (some _) c rest => c.readable && itemsReadable rest

end

mutual

/-- Total logical size of a tree: the entry's own byte length plus,
for a listed directory, the lengths of everything below it. -/
def FSEntry.sumLen : FSEntry → Nat
  | .inaccessible => 0
  | .presentNoList meta => meta.len
  | .presentList meta items =>
      meta.len + (if meta.isDir then itemsSumLen items else 0)

/-- Total logical size of the children of a directory listing
(failed items included: the object exists on disk regardless). -/
def itemsSumLen : Items → Nat
  | .nil => 0
  | .cons _ c rest => c.sumLen + itemsSumLen rest

end

mutual

/-- All present unique ids in a tree (the inodes of its entries). -/
def FSEntry.treeIds : FSEntry → List UniqueID
  | .inaccessible => []
  | .presentNoList meta => meta.uniqueId.toList
  | .presentList meta items =>
      meta.uniqueId.toList ++ (if meta.isDir then itemsIds items else [])

/-- All present unique ids below a directory listing. -/
def itemsIds : Items → List UniqueID
  | .nil => []
  | .cons _ c rest => c.treeIds ++ itemsIds rest

end

theorem Shuffle.nil_left {α : Type} {ys zs : List α}
    (h : Shuffle [] ys zs) : zs = ys := by
  generalize hx : ([] : List α) = xs at h
  induction h with
  | nil => rfl
  | left _ _ => exact absurd hx (by simp)
  | right _ ih => rw [ih hx]

theorem Shuffle.nil_right {α : Type} {xs zs : List α}
    (h : Shuffle xs [] zs) : zs = xs := by
  generalize hy : ([] : List α) = ys at h
  induction h with
  | nil => rfl
  | left _ ih => simp_all
  | right _ _ => exact absurd hy (by simp)

theorem Shuffle.symm {α : Type} {xs ys zs : List α}
    (h : Shuffle xs ys zs) : Shuffle ys xs zs := by
  induction h with
  | nil => exact .nil
  | left _ ih => exact .right ih
  | right _ ih => exact .left ih

theorem shuffle_append_left {α : Type} (xs ys : List α) :
    Shuffle xs ys (xs ++ ys) := by
  induction xs with
  | nil =>
      simp only [List.nil_append]
      induction ys with
      | nil => exact .nil
      | cons y ys ih => exact .right ih
  | cons x xs ih => exact .left ih

theorem shuffle_append_right {α : Type} (xs ys : List α) :
    Shuffle xs ys (ys ++ xs) :=
  (shuffle_append_left ys xs).symm

theorem Shuffle.mem_or {α : Type} {xs ys zs : List α} {a : α}
    (h : Shuffle xs ys zs) (ha : a ∈ zs) : a ∈ xs ∨ a ∈ ys := by
  induction h with
  | nil => cases ha
  | left _ ih =>
      rcases List.mem_cons.mp ha with h1 | h1
      · exact Or.inl (h1 ▸ List.mem_cons_self _ _)
      · rcases ih h1 with h2 | h2
        · exact Or.inl (List.mem_cons_of_mem _ h2)
        · exact Or.inr h2
  | right _ ih =>
      rcases List.mem_cons.mp ha with h1 | h1
      · exact Or.inr (h1 ▸ List.mem_cons_self _ _)
      · rcases ih h1 with h2 | h2
        · exact Or.inl h2
        · exact Or.inr (List.mem_cons_of_mem _ h2)

theorem shuffle_count_add {α : Type} [DecidableEq α] {xs ys zs : List α}
    (h : Shuffle xs ys zs) (a : α) :
    zs.count a = xs.count a + ys.count a := by
  induction h with
  | nil => rfl
  | left _ ih => simp [List.count_cons, ih]; omega
  | right _ ih => simp [List.count_cons, ih]; omega

theorem Shuffle.filter {α : Type} (f : α → Bool) {xs ys zs : List α}
    (h : Shuffle xs ys zs) :
    Shuffle (xs.filter f) (ys.filter f) (zs.filter f) := by
  induction h with
  | nil => exact .nil
  | @left x xs ys zs _ ih =>
      by_cases hx : f x
      · simpa [List.filter_cons, hx] using Shuffle.left ih
      · simpa [List.filter_cons, hx] using ih
  | @right y xs ys zs _ ih =>
      by_cases hy : f y
      · simpa [List.filter_cons, hy] using Shuffle.right ih
      · simpa [List.filter_cons, hy] using ih

theorem NShuffle.mem_exists {α : Type} {ts : List (List α)} {σ : List α}
    {a : α} (h : NShuffle ts σ) (ha : a ∈ σ) : ∃ t ∈ ts, a ∈ t := by
  induction h with
  | nil => cases ha
  | @cons t ts σ σ' hsh _ ih =>
      rcases hsh.mem_or ha with h1 | h1
      · exact ⟨t, List.mem_cons_self _ _, h1⟩
      · rcases ih h1 with ⟨u, hu, hau⟩
        exact ⟨u, List.mem_cons_of_mem _ hu, hau⟩

theorem nshuffle_count_sum {α : Type} [DecidableEq α] {ts : List (List α)}
    {σ : List α} (h : NShuffle ts σ) (a : α) :
    σ.count a = (ts.map (List.count a)).sum := by
  induction h with
  | nil => rfl
  | @cons t ts σ σ' hsh _ ih => simp [shuffle_count_add hsh a, ih]

theorem nshuffle_flatten {α : Type} (ts : List (List α)) :
    NShuffle ts ts.flatten := by
  induction ts with
  | nil => exact .nil
  | cons t ts ih => exact .cons (shuffle_append_left t ts.flatten) ih

theorem nshuffle_filter_nil {α : Type} (f : α → Bool) {ts : List (List α)}
    {σ : List α} (h : NShuffle ts σ) (hf : ∀ t ∈ ts, t.filter f = []) :
    σ.filter f = [] := by
  induction h with
  | nil => rfl
  | @cons t ts σ σ' hsh _ ih =>
      have h1 := hsh.filter f
      rw [hf t (List.mem_cons_self _ _), ih (fun u hu => hf u (List.mem_cons_of_mem _ hu))] at h1
      exact h1.nil_left

theorem nshuffle_filter_single {α : Type} (f : α → Bool)
    {ts₁ ts₂ : List (List α)} {u : List α} {σ : List α}
    (h : NShuffle (ts₁ ++ u :: ts₂) σ)
    (hf : ∀ v ∈ ts₁ ++ ts₂, v.filter f = []) :
    σ.filter f = u.filter f := by
  induction ts₁ generalizing σ with
  | nil =>
      cases h with
      | @cons _ _ _ σ' hsh hn =>
          have hσ' : σ'.filter f = [] :=
            nshuffle_filter_nil f hn (fun v hv => hf v (by simpa using hv))
          have h1 := hsh.filter f
          rw [hσ'] at h1
          exact h1.nil_right
  | cons v ts₁ ih =>
      cases h with
      | @cons _ _ _ σ' hsh hn =>
          have hv : v.filter f = [] := hf v (by simp)
          have h1 := hsh.filter f
          rw [hv] at h1
          have h2 := h1.nil_left
          rw [h2]
          exact ih hn (fun w hw => hf w (by
            rcases List.mem_append.mp hw with h3 | h3
            · exact List.mem_append.mpr (Or.inl (List.mem_cons_of_mem _ h3))
            · exact List.mem_append.mpr (Or.inr h3)))

theorem presentIds_append (a b : List Message) :
    presentIds (a ++ b) = presentIds a ++ presentIds b :=
  List.filterMap_append a b _

theorem rIds_append (r : FsPath) (a b : List Message) :
    rIds r (a ++ b) = rIds r a ++ rIds r b :=
  List.filterMap_append a b _

theorem rSizes_append (r : FsPath) (a b : List Message) :
    rSizes r (a ++ b) = rSizes r a ++ rSizes r b :=
  List.filterMap_append a b _

mutual

theorem walkEntry_no_fin (t : FilesizeType) (q root p : FsPath) :
    ∀ e : FSEntry, Message.FinishedEntry q ∉ walkEntry t root p e
  | .inaccessible => by simp [walkEntry]
  | .presentNoList meta => by
      by_cases h : meta.isDir <;> simp [walkEntry, h]
  | .presentList meta items => by
      have hi := walkItems_no_fin t q root p items
      by_cases h : meta.isDir <;> simp [walkEntry, h]
      exact fun hc => hi hc

theorem walkItems_no_fin (t : FilesizeType) (q root p : FsPath) :
    ∀ items : Items, Message.FinishedEntry q ∉ walkItems t root p items
  | .nil => by simp [walkItems]
  | .cons none c rest => by
      simpa [walkItems] using walkItems_no_fin t q root p rest
  | .cons (some n) c rest => by
      have h1 := walkEntry_no_fin t q root (p ++ [n]) c
      have h2 := walkItems_no_fin t q root p rest
      simp [walkItems]
      exact ⟨h1, h2⟩

end

mutual

theorem walkEntry_label (t : FilesizeType) (root p : FsPath) :
    ∀ e : FSEntry, ∀ m ∈ walkEntry t root p e,
      m.rootLabel = none ∨ m.rootLabel = some root
  | .inaccessible => by simp [walkEntry, Message.rootLabel]
  | .presentNoList meta => by
      by_cases h : meta.isDir <;> simp [walkEntry, h, Message.rootLabel]
  | .presentList meta items => by
      have hi := walkItems_label t root p items
      by_cases h : meta.isDir <;> simp [walkEntry, h, Message.rootLabel]
      exact hi

theorem walkItems_label (t : FilesizeType) (root p : FsPath) :
    ∀ items : Items, ∀ m ∈ walkItems t root p items,
      m.rootLabel = none ∨ m.rootLabel = some root
  | .nil => by simp [walkItems]
  | .cons none c rest => by
      simpa [walkItems] using walkItems_label t root p rest
  | .cons (some n) c rest => by
      have h1 := walkEntry_label t root (p ++ [n]) c
      have h2 := walkItems_label t root p rest
      simp only [walkItems]
      intro m hm
      exact (List.mem_append.mp hm).elim (h1 m) (h2 m)

end

mutual

theorem presentIds_walkEntry (t : FilesizeType) (root p : FsPath) :
    ∀ e : FSEntry, List.Sublist (presentIds (walkEntry t root p e)) e.treeIds
  | .inaccessible => by simp [walkEntry, presentIds, FSEntry.treeIds]
  | .presentNoList meta => by
      by_cases h : meta.isDir <;>
        cases huid : meta.uniqueId <;>
        simp [walkEntry, presentIds, FSEntry.treeIds, h, huid,
          generate_unique_id, List.filterMap_cons]
  | .presentList meta items => by
      have hi := presentIds_walkItems t root p items
      by_cases h : meta.isDir <;>
        cases huid : meta.uniqueId <;>
        simp [walkEntry, presentIds, FSEntry.treeIds, h, huid,
          generate_unique_id, List.filterMap_cons] <;> exact hi

theorem presentIds_walkItems (t : FilesizeType) (root p : FsPath) :
    ∀ items : Items, List.Sublist (presentIds (walkItems t root p items)) (itemsIds items)
  | .nil => by simp [walkItems, presentIds, itemsIds]
  | .cons none c rest => by
      have hi := presentIds_walkItems t root p rest
      simp only [walkItems, itemsIds]
      exact hi.trans (List.sublist_append_right _ _)
  | .cons (some n) c rest => by
      have h1 := presentIds_walkEntry t root (p ++ [n]) c
      have h2 := presentIds_walkItems t root p rest
      simp only [walkItems, itemsIds, presentIds_append]
      exact h1.append h2

end

mutual

theorem rSizes_walkEntry_sum (root p : FsPath) :
    ∀ e : FSEntry, e.readable = true →
      (rSizes root (walkEntry .ApparentSize root p e)).sum = e.sumLen
  | .inaccessible => by simp [FSEntry.readable]
  | .presentNoList meta => by
      intro hr
      simp only [FSEntry.readable, Bool.not_eq_true'] at hr
      simp [walkEntry, rSizes, FSEntry.sumLen, hr, List.filterMap_cons,
        FilesizeType.size]
  | .presentList meta items => by
      intro hr
      by_cases h : meta.isDir
      · have hir : itemsReadable items = true := by
          simp [FSEntry.readable, h] at hr
          exact hr
        have hi := rSizes_walkItems_sum root p items hir
        simp [walkEntry, rSizes, FSEntry.sumLen, h, List.filterMap_cons,
          FilesizeType.size, rSizes_append] at hi ⊢
        simpa [rSizes] using hi
      · simp [walkEntry, rSizes, FSEntry.sumLen, h, List.filterMap_cons,
          FilesizeType.size]

theorem rSizes_walkItems_sum (root p : FsPath) :
    ∀ items : Items, itemsReadable items = true →
      (rSizes root (walkItems .ApparentSize root p items)).sum = itemsSumLen items
  | .nil => by simp [walkItems, rSizes, itemsSumLen]
  | .cons none c rest => by simp [itemsReadable]
  | .cons (some n) c rest => by
      intro hr
      simp only [itemsReadable, Bool.and_eq_true] at hr
      have h1 := rSizes_walkEntry_sum root (p ++ [n]) c hr.1
      have h2 := rSizes_walkItems_sum root p rest hr.2
      simp [walkItems, itemsSumLen, rSizes_append, h1, h2]

end

/-- The present unique ids of the `SizeEntry` messages NOT attributed
to root `r`, in stream order. -/
def nonRIds (r : FsPath) (msgs : List Message) : List UniqueID :=
  msgs.filterMap fun m =>
    match m with
    | Message.SizeEntry (some id) q _ => if q = r then none else some id
    | _ => none

theorem mem_presentIds_iff {id : UniqueID} {msgs : List Message} :
    id ∈ presentIds msgs ↔ ∃ q s, Message.SizeEntry (some id) q s ∈ msgs := by
  constructor
  · intro h
    rcases List.mem_filterMap.mp h with ⟨m, hm, he⟩
    cases m with
    | SizeEntry oid q s =>
        cases oid with
        | none => simp at he
        | some i => exact ⟨q, s, by simpa using (by simp at he; exact he ▸ hm)⟩
    | FinishedEntry p => simp at he
    | Error e => simp at he
  · rintro ⟨q, s, hm⟩
    exact List.mem_filterMap.mpr ⟨_, hm, by simp⟩

theorem mem_rIds_iff {id : UniqueID} {r : FsPath} {msgs : List Message} :
    id ∈ rIds r msgs ↔ ∃ s, Message.SizeEntry (some id) r s ∈ msgs := by
  constructor
  · intro h
    rcases List.mem_filterMap.mp h with ⟨m, hm, he⟩
    cases m with
    | SizeEntry oid q s =>
        cases oid with
        | none => simp at he
        | some i =>
            by_cases hq : q = r

            · subst hq
              simp at he
              exact ⟨s, he ▸ hm⟩
            · simp [hq] at he
    | FinishedEntry p => simp at he
    | Error e => simp at he
  · rintro ⟨s, hm⟩
    exact List.mem_filterMap.mpr ⟨_, hm, by simp⟩

theorem mem_nonRIds_iff {id : UniqueID} {r : FsPath} {msgs : List Message} :
    id ∈ nonRIds r msgs ↔
      ∃ q s, q ≠ r ∧ Message.SizeEntry (some id) q s ∈ msgs := by
  constructor
  · intro h
    rcases List.mem_filterMap.mp h with ⟨m, hm, he⟩
    cases m with
    | SizeEntry oid q s =>
        cases oid with
        | none => simp at he
        | some i =>
            by_cases hq : q = r
            · simp [hq] at he
            · simp [hq] at he
              exact ⟨q, s, hq, he ▸ hm⟩
    | FinishedEntry p => simp at he
    | Error e => simp at he
  · rintro ⟨q, s, hq, hm⟩
    exact List.mem_filterMap.mpr ⟨_, hm, by simp [hq]⟩

theorem findSize_append (a b : List (FsPath × Nat)) (r : FsPath) :
    findSize (a ++ b) r = (match findSize a r with
      | some v => some v
      | none => findSize b r) := by
  induction a with
  | nil => simp [findSize]
  | cons kv a ih => by_cases h : kv.1 = r <;> simp [findSize, h, ih]

theorem findSize_map_update {sizes : List (FsPath × Nat)} {r : FsPath}
    {v : Nat} (s : Nat) (h : findSize sizes r = some v) :
    findSize (sizes.map fun kv =>
        if kv.1 = r then (kv.1, (kv.2 + s) % U64MOD) else kv) r
      = some ((v + s) % U64MOD) := by
  induction sizes with
  | nil => simp [findSize] at h
  | cons kv rest ih =>
      by_cases hk : kv.1 = r
      · simp [findSize, hk] at h
        simp [findSize, hk, h]
      · simp [findSize, hk] at h ⊢
        exact ih h

theorem findSize_map_update_ne {sizes : List (FsPath × Nat)} {q r : FsPath}
    (s : Nat) (h : q ≠ r) :
    findSize (sizes.map fun kv =>
        if kv.1 = q then (kv.1, (kv.2 + s) % U64MOD) else kv) r
      = findSize sizes r := by
  induction sizes with
  | nil => simp [findSize]
  | cons kv rest ih =>
      by_cases hk : kv.1 = q
      · have hr : kv.1 ≠ r := hk ▸ h
        simp [findSize, hk, hr, h, ih]
      · by_cases hr : kv.1 = r <;> simp [findSize, hk, hr, h, Ne.symm h, ih]

theorem findSize_addSize_self (sizes : List (FsPath × Nat)) (r : FsPath)
    (s : Nat) :
    findSize (addSize sizes r s) r = some (match findSize sizes r with
      | some v => (v + s) % U64MOD
      | none => s) := by
  unfold addSize
  cases h : findSize sizes r with
  | some v => simp [h, findSize_map_update s h]
  | none => simp [h, findSize_append, findSize]

theorem findSize_addSize_ne (sizes : List (FsPath × Nat)) {q r : FsPath}
    (s : Nat) (h : q ≠ r) :
    findSize (addSize sizes q s) r = findSize sizes r := by
  unfold addSize
  cases hq : findSize sizes q with
  | some v =>
      simp [hq, findSize_map_update_ne s h]
  | none =>
      simp [hq, findSize_append, findSize, h]
      cases findSize sizes r <;> simp [h]

theorem getTotal_addSize_self {sizes : List (FsPath × Nat)} {s : Nat}
    (r : FsPath) (hs : s < U64MOD) :
    (findSize (addSize sizes r s) r).getD 0
      = ((findSize sizes r).getD 0 + s) % U64MOD := by
  rw [findSize_addSize_self]
  cases h : findSize sizes r with
  | some v => simp
  | none => simp [Nat.mod_eq_of_lt hs]

/-- Processing a message not attributed to `r` leaves `r`'s slot of the
size map unchanged. -/
theorem step_sizes_other {st : AggState} {m : Message} (r : FsPath)
    (h : belongsTo r m = false) :
    findSize (processMessage st m).sizes r = findSize st.sizes r := by
  cases m with
  | SizeEntry oid q s =>
      have hq : q ≠ r := by
        simp [belongsTo, Message.rootLabel] at h
        exact h
      cases oid with
      | some id =>
          by_cases hin : id ∈ st.ids <;>
            simp [processMessage, hin, findSize_addSize_ne _ s hq]
      | none => simp [processMessage, findSize_addSize_ne _ s hq]
  | FinishedEntry p => rfl
  | Error e => rfl

/-- Processing messages none of which is a `SizeEntry` for `r` leaves
`r`'s slot of the size map unchanged. -/
theorem foldl_sizes_frame {msgs : List Message} (r : FsPath) :
    ∀ st : AggState, (∀ id s, Message.SizeEntry id r s ∉ msgs) →
      findSize (msgs.foldl processMessage st).sizes r = findSize st.sizes r := by
  induction msgs with
  | nil => intro st _; rfl
  | cons m rest ih =>
      intro st h
      rw [List.foldl_cons,
        ih _ (fun id s hin => h id s (List.mem_cons_of_mem _ hin))]
      cases m with
      | SizeEntry oid q s =>
          have hq : q ≠ r := fun hq => h oid s (hq ▸ List.mem_cons_self _ _)
          cases oid with
          | some id =>
              by_cases hin : id ∈ st.ids <;>
                simp [processMessage, hin, findSize_addSize_ne _ s hq]
          | none => simp [processMessage, findSize_addSize_ne _ s hq]
      | FinishedEntry p => rfl
      | Error e => rfl

theorem step_ids_mono {st : AggState} (m : Message) :
    ∀ id ∈ st.ids, id ∈ (processMessage st m).ids := by
  intro id hid
  cases m with
  | SizeEntry oid q s =>
      cases oid with
      | some i =>
          by_cases hin : i ∈ st.ids <;> simp [processMessage, hin, hid]
      | none => exact hid
  | FinishedEntry p => exact hid
  | Error e => exact hid

theorem foldl_ids_mono (msgs : List Message) :
    ∀ st : AggState, ∀ id ∈ st.ids,
      id ∈ (msgs.foldl processMessage st).ids := by
  induction msgs with
  | nil => intro st id hid; exact hid
  | cons m rest ih =>
      intro st id hid
      exact ih _ id (step_ids_mono m id hid)

theorem foldl_ids_sub (msgs : List Message) :
    ∀ st : AggState, ∀ id ∈ (msgs.foldl processMessage st).ids,
      id ∈ st.ids ∨ id ∈ presentIds msgs := by
  induction msgs with
  | nil => intro st id hid; exact Or.inl hid
  | cons m rest ih =>
      intro st id hid
      rcases ih _ id hid with h1 | h1
      · cases m with
        | SizeEntry oid q s =>
            cases oid with
            | some i =>
                by_cases hin : i ∈ st.ids
                · left
                  simpa [processMessage, hin] using h1
                · simp [processMessage, hin] at h1
                  rcases h1 with h2 | h2
                  · subst h2
                    exact Or.inr
                      (mem_presentIds_iff.mpr ⟨q, s, List.mem_cons_self _ _⟩)
                  · exact Or.inl h2
            | none => exact Or.inl h1
        | FinishedEntry p => exact Or.inl h1
        | Error e => exact Or.inl h1
      · rcases mem_presentIds_iff.mp h1 with ⟨q2, s2, hmem⟩
        exact Or.inr
          (mem_presentIds_iff.mpr ⟨q2, s2, List.mem_cons_of_mem _ hmem⟩)

theorem mem_foldl_ids_of_mem {msgs : List Message} {id : UniqueID}
    {q : FsPath} {s : Nat} :
    ∀ st : AggState, Message.SizeEntry (some id) q s ∈ msgs →
      id ∈ (msgs.foldl processMessage st).ids := by
  induction msgs with
  | nil => intro st h; cases h
  | cons m rest ih =>
      intro st h
      rcases List.mem_cons.mp h with h1 | h1
      · subst h1
        by_cases hin : id ∈ st.ids
        · exact foldl_ids_mono rest _ id (by simp [processMessage, hin, hin])
        · exact foldl_ids_mono rest _ id (by simp [processMessage, hin])
      · exact ih _ h1

theorem presentIds_cons_some (id : UniqueID) (q : FsPath) (s : Nat)
    (rest : List Message) :
    presentIds (Message.SizeEntry (some id) q s :: rest) = id :: presentIds rest := by
  simp [presentIds, List.filterMap_cons]

theorem presentIds_cons_none (q : FsPath) (s : Nat) (rest : List Message) :
    presentIds (Message.SizeEntry none q s :: rest) = presentIds rest := by
  simp [presentIds, List.filterMap_cons]

theorem presentIds_cons_fin (p : FsPath) (rest : List Message) :
    presentIds (Message.FinishedEntry p :: rest) = presentIds rest := by
  simp [presentIds, List.filterMap_cons]

theorem presentIds_cons_err (e : Error) (rest : List Message) :
    presentIds (Message.Error e :: rest) = presentIds rest := by
  simp [presentIds, List.filterMap_cons]

theorem rIds_cons_some_eq (id : UniqueID) (r : FsPath) (s : Nat)
    (rest : List Message) :
    rIds r (Message.SizeEntry (some id) r s :: rest) = id :: rIds r rest := by
  simp [rIds, List.filterMap_cons]

theorem rIds_cons_some_ne (id : UniqueID) {q r : FsPath} (s : Nat)
    (rest : List Message) (h : q ≠ r) :
    rIds r (Message.SizeEntry (some id) q s :: rest) = rIds r rest := by
  simp [rIds, List.filterMap_cons, h]

theorem rIds_cons_none (q r : FsPath) (s : Nat) (rest : List Message) :
    rIds r (Message.SizeEntry none q s :: rest) = rIds r rest := by
  by_cases h : q = r <;> simp [rIds, List.filterMap_cons, h]

theorem rIds_cons_fin (p r : FsPath) (rest : List Message) :
    rIds r (Message.FinishedEntry p :: rest) = rIds r rest := by
  simp [rIds, List.filterMap_cons]

theorem rIds_cons_err (e : Error) (r : FsPath) (rest : List Message) :
    rIds r (Message.Error e :: rest) = rIds r rest := by
  simp [rIds, List.filterMap_cons]

theorem rSizes_cons_eq (oid : Option UniqueID) (r : FsPath) (s : Nat)
    (rest : List Message) :
    rSizes r (Message.SizeEntry oid r s :: rest) = s :: rSizes r rest := by
  simp [rSizes, List.filterMap_cons]

theorem rSizes_cons_ne (oid : Option UniqueID) {q r : FsPath} (s : Nat)
    (rest : List Message) (h : q ≠ r) :
    rSizes r (Message.SizeEntry oid q s :: rest) = rSizes r rest := by
  simp [rSizes, List.filterMap_cons, h]

theorem rSizes_cons_fin (p r : FsPath) (rest : List Message) :
    rSizes r (Message.FinishedEntry p :: rest) = rSizes r rest := by
  simp [rSizes, List.filterMap_cons]

theorem rSizes_cons_err (e : Error) (r : FsPath) (rest : List Message) :
    rSizes r (Message.Error e :: rest) = rSizes r rest := by
  simp [rSizes, List.filterMap_cons]

theorem nonRIds_cons_some_eq (id : UniqueID) (r : FsPath) (s : Nat)
    (rest : List Message) :
    nonRIds r (Message.SizeEntry (some id) r s :: rest) = nonRIds r rest := by
  simp [nonRIds, List.filterMap_cons]

theorem nonRIds_cons_some_ne (id : UniqueID) {q r : FsPath} (s : Nat)
    (rest : List Message) (h : q ≠ r) :
    nonRIds r (Message.SizeEntry (some id) q s :: rest)
      = id :: nonRIds r rest := by
  simp [nonRIds, List.filterMap_cons, h]

theorem nonRIds_cons_none (q r : FsPath) (s : Nat) (rest : List Message) :
    nonRIds r (Message.SizeEntry none q s :: rest) = nonRIds r rest := by
  by_cases h : q = r <;> simp [nonRIds, List.filterMap_cons, h]

theorem nonRIds_cons_fin (p r : FsPath) (rest : List Message) :
    nonRIds r (Message.FinishedEntry p :: rest) = nonRIds r rest := by
  simp [nonRIds, List.filterMap_cons]

theorem nonRIds_cons_err (e : Error) (r : FsPath) (rest : List Message) :
    nonRIds r (Message.Error e :: rest) = nonRIds r rest := by
  simp [nonRIds, List.filterMap_cons]

theorem U64MOD_pos : 0 < U64MOD := by
  norm_num [U64MOD]

theorem getTotal_eq (st : AggState) (r : FsPath) :
    getTotal st r = (findSize st.sizes r).getD 0 := rfl

/-- When every present id of a stream is fresh (pairwise distinct and
unseen), the aggregator counts every `SizeEntry`, and `r`'s total is the
`u64` sum of the sizes attributed to `r`. -/
theorem agg_total_sum (r : FsPath) (msgs : List Message) :
    ∀ st : AggState,
      (presentIds msgs).Nodup →
      (∀ id ∈ presentIds msgs, id ∉ st.ids) →
      (∀ s ∈ rSizes r msgs, s < U64MOD) →
      getTotal st r < U64MOD →
      getTotal (msgs.foldl processMessage st) r
        = (getTotal st r + (rSizes r msgs).sum) % U64MOD := by
  induction msgs with
  | nil =>
      intro st _ _ _ h4
      show getTotal st r = (getTotal st r + ([] : List Nat).sum) % U64MOD
      rw [List.sum_nil, Nat.add_zero, Nat.mod_eq_of_lt h4]
  | cons m rest ih =>
      intro st h1 h2 h3 h4
      rw [List.foldl_cons]
      cases m with
      | SizeEntry oid q s =>
          have hS : (processMessage st (Message.SizeEntry oid q s)).sizes
                = addSize st.sizes q s ∧
              ((processMessage st (Message.SizeEntry oid q s)).ids = st.ids ∨
                (processMessage st (Message.SizeEntry oid q s)).ids
                  = (match oid with | some id => [id] | none => []) ++ st.ids) := by
            cases oid with
            | some id =>
                have hid : id ∉ st.ids := h2 id (by
                  rw [presentIds_cons_some]; exact List.mem_cons_self _ _)
                simp [processMessage, hid]
            | none => simp [processMessage]
          have hniff : (presentIds rest).Nodup ∧
              (∀ id2 ∈ presentIds rest,
                id2 ∉ (processMessage st (Message.SizeEntry oid q s)).ids) := by
            cases oid with
            | some id =>
                rw [presentIds_cons_some] at h1 h2
                refine ⟨(List.nodup_cons.mp h1).2, fun id2 hid2 => ?_⟩
                rcases hS.2 with hI | hI <;> rw [hI]
                · exact h2 id2 (List.mem_cons_of_mem _ hid2)
                · intro hc
                  rcases List.mem_append.mp hc with hc1 | hc1
                  · exact (List.nodup_cons.mp h1).1
                      ((by simpa using hc1) ▸ hid2)
                  · exact h2 id2 (List.mem_cons_of_mem _ hid2) hc1
            | none =>
                rw [presentIds_cons_none] at h1 h2
                refine ⟨h1, fun id2 hid2 => ?_⟩
                rcases hS.2 with hI | hI <;> rw [hI]
                · exact h2 id2 hid2
                · exact h2 id2 hid2
          by_cases hq : q = r
          · subst hq
            have hs : s < U64MOD :=
              h3 s (by rw [rSizes_cons_eq]; exact List.mem_cons_self _ _)
            have hstep : getTotal (processMessage st (Message.SizeEntry oid q s)) q
                = (getTotal st q + s) % U64MOD := by
              rw [getTotal_eq, hS.1]
              exact getTotal_addSize_self q hs
            rw [ih _ hniff.1 hniff.2
              (fun s2 hs2 => h3 s2 (by
                rw [rSizes_cons_eq]; exact List.mem_cons_of_mem _ hs2))
              (by rw [hstep]; exact Nat.mod_lt _ U64MOD_pos),
              hstep, Nat.mod_add_mod, rSizes_cons_eq, List.sum_cons,
              Nat.add_assoc]
          · have hstep : getTotal (processMessage st (Message.SizeEntry oid q s)) r
                = getTotal st r := by
              rw [getTotal_eq, hS.1, getTotal_eq, findSize_addSize_ne _ s hq]
            rw [ih _ hniff.1 hniff.2
              (fun s2 hs2 => h3 s2 (by
                rw [rSizes_cons_ne _ _ _ hq]; exact hs2))
              (by rw [hstep]; exact h4),
              hstep, rSizes_cons_ne _ _ _ hq]
      | FinishedEntry p =>
          rw [presentIds_cons_fin] at h1 h2
          rw [show processMessage st (Message.FinishedEntry p) = st from rfl,
            ih _ h1 h2
              (fun s2 hs2 => h3 s2 (by rw [rSizes_cons_fin]; exact hs2)) h4,
            rSizes_cons_fin]
      | Error e =>
          rw [presentIds_cons_err] at h1 h2
          have hgt : getTotal (processMessage st (Message.Error e)) r
              = getTotal st r := rfl
          have hids : (processMessage st (Message.Error e)).ids = st.ids := rfl
          rw [ih _ h1 (fun id2 hid2 => by rw [hids]; exact h2 id2 hid2)
              (fun s2 hs2 => h3 s2 (by rw [rSizes_cons_err]; exact hs2))
              (by rw [hgt]; exact h4),
            hgt, rSizes_cons_err]

theorem mem_rIds_cons (m : Message) {id : UniqueID} {r : FsPath}
    {rest : List Message} (h : id ∈ rIds r rest) : id ∈ rIds r (m :: rest) := by
  rcases mem_rIds_iff.mp h with ⟨s, hm⟩
  exact mem_rIds_iff.mpr ⟨s, List.mem_cons_of_mem _ hm⟩

theorem mem_nonRIds_cons (m : Message) {id : UniqueID} {r : FsPath}
    {rest : List Message} (h : id ∈ nonRIds r rest) :
    id ∈ nonRIds r (m :: rest) := by
  rcases mem_nonRIds_iff.mp h with ⟨q, s, hq, hm⟩
  exact mem_nonRIds_iff.mpr ⟨q, s, hq, List.mem_cons_of_mem _ hm⟩

/-- The evolution of root `r`'s slot of the size map depends only on
that slot and on which ids of `r`-labeled messages have been seen,
provided no id is shared between an `r`-labeled and a non-`r`-labeled
`SizeEntry` of the stream. -/
theorem foldl_total_congr (r : FsPath) (msgs : List Message) :
    ∀ st₁ st₂ : AggState,
      findSize st₁.sizes r = findSize st₂.sizes r →
      (∀ id ∈ rIds r msgs, (id ∈ st₁.ids ↔ id ∈ st₂.ids)) →
      (∀ id ∈ rIds r msgs, id ∉ nonRIds r msgs) →
      findSize (msgs.foldl processMessage st₁).sizes r
        = findSize (msgs.foldl processMessage st₂).sizes r := by
  induction msgs with
  | nil => intro st₁ st₂ h _ _; exact h
  | cons m rest ih =>
      intro st₁ st₂ hfs hiff hsep
      rw [List.foldl_cons, List.foldl_cons]
      have hiffR : ∀ id2 ∈ rIds r rest, (id2 ∈ st₁.ids ↔ id2 ∈ st₂.ids) :=
        fun id2 h2 => hiff id2 (mem_rIds_cons m h2)
      have hsepR : ∀ id2 ∈ rIds r rest, id2 ∉ nonRIds r rest :=
        fun id2 h2 hn =>
          hsep id2 (mem_rIds_cons m h2) (mem_nonRIds_cons m hn)
      cases m with
      | SizeEntry oid q s =>
          cases oid with
          | some id =>
              by_cases hq : q = r
              · subst hq
                have hmem : id ∈ rIds q (Message.SizeEntry (some id) q s :: rest) := by
                  rw [rIds_cons_some_eq]; exact List.mem_cons_self _ _
                have hI := hiff id hmem
                by_cases hin : id ∈ st₁.ids
                · have hin2 : id ∈ st₂.ids := hI.mp hin
                  rw [show processMessage st₁ (Message.SizeEntry (some id) q s) = st₁
                      from by simp [processMessage, hin],
                    show processMessage st₂ (Message.SizeEntry (some id) q s) = st₂
                      from by simp [processMessage, hin2]]
                  exact ih st₁ st₂ hfs hiffR hsepR
                · have hin2 : id ∉ st₂.ids := fun hc => hin (hI.mpr hc)
                  rw [show processMessage st₁ (Message.SizeEntry (some id) q s)
                      = AggState.mk (id :: st₁.ids) (addSize st₁.sizes q s) st₁.errors
                      from by simp [processMessage, hin],
                    show processMessage st₂ (Message.SizeEntry (some id) q s)
                      = AggState.mk (id :: st₂.ids) (addSize st₂.sizes q s) st₂.errors
                      from by simp [processMessage, hin2]]
                  refine ih _ _ ?_ ?_ hsepR
                  · show findSize (addSize st₁.sizes q s) q
                        = findSize (addSize st₂.sizes q s) q
                    rw [findSize_addSize_self, findSize_addSize_self, hfs]
                  · intro id2 h2
                    by_cases he : id2 = id
                    · subst he; simp
                    · show id2 ∈ id :: st₁.ids ↔ id2 ∈ id :: st₂.ids
                      simp only [List.mem_cons, he, false_or]
                      exact hiffR id2 h2
              · have hnot : ∀ id2 ∈ rIds r rest, id2 ≠ id := fun id2 h2 he =>
                  hsep id2 (mem_rIds_cons _ h2)
                    (by
                      rw [nonRIds_cons_some_ne _ s rest hq]
                      exact he ▸ List.mem_cons_self _ _)
                have hfs1 : ∀ sz : List (FsPath × Nat),
                    findSize (addSize sz q s) r = findSize sz r :=
                  fun sz => findSize_addSize_ne sz s hq
                by_cases hin1 : id ∈ st₁.ids <;> by_cases hin2 : id ∈ st₂.ids
                · rw [show processMessage st₁ (Message.SizeEntry (some id) q s) = st₁
                      from by simp [processMessage, hin1],
                    show processMessage st₂ (Message.SizeEntry (some id) q s) = st₂
                      from by simp [processMessage, hin2]]
                  exact ih st₁ st₂ hfs hiffR hsepR
                · rw [show processMessage st₁ (Message.SizeEntry (some id) q s) = st₁
                      from by simp [processMessage, hin1],
                    show processMessage st₂ (Message.SizeEntry (some id) q s)
                      = AggState.mk (id :: st₂.ids) (addSize st₂.sizes q s) st₂.errors
                      from by simp [processMessage, hin2]]
                  refine ih _ _ ?_ ?_ hsepR
                  · show findSize st₁.sizes r = findSize (addSize st₂.sizes q s) r
                    rw [hfs1]; exact hfs
                  · intro id2 h2
                    show id2 ∈ st₁.ids ↔ id2 ∈ id :: st₂.ids
                    simp only [List.mem_cons, hnot id2 h2, false_or]
                    exact hiffR id2 h2
                · rw [show processMessage st₁ (Message.SizeEntry (some id) q s)
                      = AggState.mk (id :: st₁.ids) (addSize st₁.sizes q s) st₁.errors
                      from by simp [processMessage, hin1],
                    show processMessage st₂ (Message.SizeEntry (some id) q s) = st₂
                      from by simp [processMessage, hin2]]
                  refine ih _ _ ?_ ?_ hsepR
                  · show findSize (addSize st₁.sizes q s) r = findSize st₂.sizes r
                    rw [hfs1]; exact hfs
                  · intro id2 h2
                    show id2 ∈ id :: st₁.ids ↔ id2 ∈ st₂.ids
                    simp only [List.mem_cons, hnot id2 h2, false_or]
                    exact hiffR id2 h2
                · rw [show processMessage st₁ (Message.SizeEntry (some id) q s)
                      = AggState.mk (id :: st₁.ids) (addSize st₁.sizes q s) st₁.errors
                      from by simp [processMessage, hin1],
                    show processMessage st₂ (Message.SizeEntry (some id) q s)
                      = AggState.mk (id :: st₂.ids) (addSize st₂.sizes q s) st₂.errors
                      from by simp [processMessage, hin2]]
                  refine ih _ _ ?_ ?_ hsepR
                  · show findSize (addSize st₁.sizes q s) r
                        = findSize (addSize st₂.sizes q s) r
                    rw [hfs1, hfs1]; exact hfs
                  · intro id2 h2
                    show id2 ∈ id :: st₁.ids ↔ id2 ∈ id :: st₂.ids
                    simp only [List.mem_cons, hnot id2 h2, false_or]
                    exact hiffR id2 h2
          | none =>
              rw [show processMessage st₁ (Message.SizeEntry none q s)
                  = AggState.mk st₁.ids (addSize st₁.sizes q s) st₁.errors
                  from rfl,
                show processMessage st₂ (Message.SizeEntry none q s)
                  = AggState.mk st₂.ids (addSize st₂.sizes q s) st₂.errors
                  from rfl]
              refine ih _ _ ?_ hiffR hsepR
              by_cases hq : q = r
              · subst hq
                show findSize (addSize st₁.sizes q s) q
                    = findSize (addSize st₂.sizes q s) q
                rw [findSize_addSize_self, findSize_addSize_self, hfs]
              · show findSize (addSize st₁.sizes q s) r
                    = findSize (addSize st₂.sizes q s) r
                rw [findSize_addSize_ne _ s hq, findSize_addSize_ne _ s hq]
                exact hfs
      | FinishedEntry p =>
          rw [show processMessage st₁ (Message.FinishedEntry p) = st₁ from rfl,
            show processMessage st₂ (Message.FinishedEntry p) = st₂ from rfl]
          exact ih st₁ st₂ hfs hiffR hsepR
      | Error e =>
          rw [show processMessage st₁ (Message.Error e)
              = AggState.mk st₁.ids st₁.sizes (st₁.errors ++ [e]) from rfl,
            show processMessage st₂ (Message.Error e)
              = AggState.mk st₂.ids st₂.sizes (st₂.errors ++ [e]) from rfl]
          exact ih _ _ hfs hiffR hsepR

/-- Messages of other producers interleaved into a stream do not change
root `r`'s slot of the size map, provided they are not attributed to `r`
and share no id with `r`'s own messages. -/
theorem shuffle_total_congr (r : FsPath) {xs ys zs : List Message}
    (hsh : Shuffle xs ys zs) :
    (∀ m ∈ ys, belongsTo r m = false) →
    (∀ id ∈ presentIds ys, id ∉ rIds r xs) →
    (∀ id ∈ rIds r xs, id ∉ nonRIds r xs) →
    ∀ st : AggState,
      findSize (zs.foldl processMessage st).sizes r
        = findSize (xs.foldl processMessage st).sizes r := by
  induction hsh with
  | nil => intro _ _ _ st; rfl
  | @left x xs ys zs hsh ih =>
      intro hy hyids hsep st
      rw [List.foldl_cons, List.foldl_cons]
      exact ih hy
        (fun id hid hr => hyids id hid (mem_rIds_cons x hr))
        (fun id hid hn =>
          hsep id (mem_rIds_cons x hid) (mem_nonRIds_cons x hn))
        (processMessage st x)
  | @right y xs ys zs hsh ih =>
      intro hy hyids hsep st
      rw [List.foldl_cons]
      rw [ih (fun m hm => hy m (List.mem_cons_of_mem _ hm))
        (fun id hid => hyids id (by
          rcases mem_presentIds_iff.mp hid with ⟨q2, s2, hm⟩
          exact mem_presentIds_iff.mpr ⟨q2, s2, List.mem_cons_of_mem _ hm⟩))
        hsep (processMessage st y)]
      apply foldl_total_congr r xs (processMessage st y) st _ _ hsep
      · have hl : belongsTo r y = false := hy y (List.mem_cons_self _ _)
        cases y with
        | SizeEntry oid q s =>
            have hq : q ≠ r := by
              simp [belongsTo, Message.rootLabel] at hl
              exact hl
            cases oid with
            | some id =>
                by_cases hin : id ∈ st.ids
                · simp [processMessage, hin]
                · rw [show processMessage st (Message.SizeEntry (some id) q s)
                      = AggState.mk (id :: st.ids) (addSize st.sizes q s) st.errors
                      from by simp [processMessage, hin]]
                  exact findSize_addSize_ne _ s hq
            | none =>
                rw [show processMessage st (Message.SizeEntry none q s)
                    = AggState.mk st.ids (addSize st.sizes q s) st.errors
                    from rfl]
                exact findSize_addSize_ne _ s hq
        | FinishedEntry p => rfl
        | Error e => rfl
      · intro id2 h2
        cases y with
        | SizeEntry oid q s =>
            cases oid with
            | some id =>
                have hne : id2 ≠ id := fun he => hyids id
                  (by
                    exact mem_presentIds_iff.mpr
                      ⟨q, s, List.mem_cons_self _ _⟩)
                  (he ▸ h2)
                by_cases hin : id ∈ st.ids
                · rw [show processMessage st (Message.SizeEntry (some id) q s) = st
                    from by simp [processMessage, hin]]
                · rw [show processMessage st (Message.SizeEntry (some id) q s)
                    = AggState.mk (id :: st.ids) (addSize st.sizes q s) st.errors
                    from by simp [processMessage, hin]]
                  show id2 ∈ id :: st.ids ↔ id2 ∈ st.ids
                  simp only [List.mem_cons, hne, false_or]
            | none => rfl
        | FinishedEntry p => rfl
        | Error e => rfl

theorem nshuffle_mem_trace {ts : List (List Message)} {σ : List Message}
    (h : NShuffle ts σ) {id : UniqueID} (hid : id ∈ presentIds σ) :
    ∃ u ∈ ts, id ∈ presentIds u := by
  rcases mem_presentIds_iff.mp hid with ⟨q, s, hm⟩
  rcases h.mem_exists hm with ⟨u, hu, hmu⟩
  exact ⟨u, hu, mem_presentIds_iff.mpr ⟨q, s, hmu⟩⟩

theorem nshuffle_rIds_sub {ts : List (List Message)} {σ : List Message}
    {r : FsPath} (h : NShuffle ts σ)
    (hl : ∀ u ∈ ts, ∀ m ∈ u, belongsTo r m = false) :
    rIds r σ = [] := by
  by_contra hne
  rcases List.exists_mem_of_ne_nil _ hne with ⟨id, hid⟩
  rcases mem_rIds_iff.mp hid with ⟨s, hm⟩
  rcases h.mem_exists hm with ⟨u, hu, hmu⟩
  have := hl u hu _ hmu
  simp [belongsTo, Message.rootLabel] at this

/-- In any interleaving of per-producer traces in which `r`-labeled
messages occur only in the trace `u`, and whose other traces share no id
with `u`, root `r`'s slot of the size map is what running `u` alone
produces. -/
theorem nshuffle_total_congr (r : FsPath) :
    ∀ (ts₁ : List (List Message)) {ts₂ : List (List Message)}
      {u σ : List Message},
      NShuffle (ts₁ ++ u :: ts₂) σ →
      (∀ id ∈ rIds r u, id ∉ nonRIds r u) →
      (∀ v ∈ ts₁ ++ ts₂,
        (∀ m ∈ v, belongsTo r m = false) ∧
        (∀ id ∈ presentIds v, id ∉ rIds r u)) →
      findSize (runAggregator σ).sizes r
        = findSize (runAggregator u).sizes r := by
  intro ts₁
  induction ts₁ with
  | nil =>
      intro ts₂ u σ h hsep hothers
      cases h with
      | @cons _ _ _ σ' hsh hn =>
          refine shuffle_total_congr r hsh ?_ ?_ hsep ⟨[], [], []⟩
          · intro m hm
            rcases hn.mem_exists hm with ⟨v, hv, hmv⟩
            exact (hothers v (by simpa using hv)).1 m hmv
          · intro id hid
            rcases nshuffle_mem_trace hn hid with ⟨v, hv, hiv⟩
            exact (hothers v (by simpa using hv)).2 id hiv
  | cons v ts₁ ih =>
      intro ts₂ u σ h hsep hothers
      cases h with
      | @cons _ _ _ σ' hsh hn =>
          have hv := hothers v (by simp)
          have hothersR : ∀ w ∈ ts₁ ++ ts₂,
              (∀ m ∈ w, belongsTo r m = false) ∧
              (∀ id ∈ presentIds w, id ∉ rIds r u) := by
            intro w hw
            refine hothers w ?_
            rcases List.mem_append.mp hw with h3 | h3
            · exact List.mem_append.mpr (Or.inl (List.mem_cons_of_mem _ h3))
            · exact List.mem_append.mpr (Or.inr h3)
          have hrsub : ∀ id ∈ rIds r σ', id ∈ rIds r u := by
            intro id hid
            rcases mem_rIds_iff.mp hid with ⟨s, hm⟩
            rcases hn.mem_exists hm with ⟨w, hw, hmw⟩
            rcases List.mem_append.mp hw with h3 | h3
            · have := (hothersR w (List.mem_append.mpr (Or.inl h3))).1 _ hmw
              simp [belongsTo, Message.rootLabel] at this
            · rcases List.mem_cons.mp h3 with h4 | h4
              · exact h4 ▸ mem_rIds_iff.mpr ⟨s, h4 ▸ hmw⟩
              · have := (hothersR w
                  (List.mem_append.mpr (Or.inr h4))).1 _ hmw
                simp [belongsTo, Message.rootLabel] at this
          have hstep : findSize (runAggregator σ).sizes r
              = findSize (runAggregator σ').sizes r := by
            refine shuffle_total_congr r hsh.symm hv.1 ?_ ?_ ⟨[], [], []⟩
            · intro id hid hr
              exact hv.2 id hid (hrsub id hr)
            · intro id hid hn2
              have hu : id ∈ rIds r u := hrsub id hid
              rcases mem_nonRIds_iff.mp hn2 with ⟨q, s, hq, hm⟩
              rcases hn.mem_exists hm with ⟨w, hw, hmw⟩
              rcases List.mem_append.mp hw with h3 | h3
              · exact (hothersR w (List.mem_append.mpr (Or.inl h3))).2 id
                  (mem_presentIds_iff.mpr ⟨q, s, hmw⟩) hu
              · rcases List.mem_cons.mp h3 with h4 | h4
                · exact hsep id hu
                    (mem_nonRIds_iff.mpr ⟨q, s, hq, h4 ▸ hmw⟩)
                · exact (hothersR w (List.mem_append.mpr (Or.inr h4))).2 id
                    (mem_presentIds_iff.mpr ⟨q, s, hmw⟩) hu
          rw [hstep]
          exact ih hn hsep hothersR

/-- Pre-seeding the seen-id set can only shrink a root's final total
(each dropped `SizeEntry` drops a non-negative contribution), as long as
the unseeded run's total for `r` never overflows `u64`. -/
theorem foldl_total_mono (r : FsPath) (msgs : List Message) :
    ∀ st₁ st₂ : AggState,
      (∀ id ∈ st₁.ids, id ∈ st₂.ids) →
      getTotal st₂ r ≤ getTotal st₁ r →
      getTotal st₁ r + (rSizes r msgs).sum < U64MOD →
      getTotal (msgs.foldl processMessage st₂) r
        ≤ getTotal (msgs.foldl processMessage st₁) r := by
  induction msgs with
  | nil => intro st₁ st₂ _ hle _; exact hle
  | cons m rest ih =>
      intro st₁ st₂ hids hle hbound
      rw [List.foldl_cons, List.foldl_cons]
      cases m with
      | SizeEntry oid q s =>
          by_cases hq : q = r
          · subst hq
            rw [rSizes_cons_eq, List.sum_cons] at hbound
            have hsM : s < U64MOD := by omega
            have hv1 : getTotal st₁ q + s < U64MOD := by omega
            have hv2 : getTotal st₂ q + s < U64MOD := by omega
            cases oid with
            | some id =>
                by_cases hin2 : id ∈ st₂.ids
                · by_cases hin1 : id ∈ st₁.ids
                  · rw [show processMessage st₁ (Message.SizeEntry (some id) q s) = st₁
                        from by simp [processMessage, hin1],
                      show processMessage st₂ (Message.SizeEntry (some id) q s) = st₂
                        from by simp [processMessage, hin2]]
                    exact ih st₁ st₂ hids hle (by omega)
                  · rw [show processMessage st₁ (Message.SizeEntry (some id) q s)
                        = AggState.mk (id :: st₁.ids) (addSize st₁.sizes q s) st₁.errors
                        from by simp [processMessage, hin1],
                      show processMessage st₂ (Message.SizeEntry (some id) q s) = st₂
                        from by simp [processMessage, hin2]]
                    have hgt1 : getTotal
                        (AggState.mk (id :: st₁.ids) (addSize st₁.sizes q s) st₁.errors) q
                          = getTotal st₁ q + s := by
                      rw [getTotal_eq]
                      show (findSize (addSize st₁.sizes q s) q).getD 0 = _
                      rw [getTotal_addSize_self q hsM, ← getTotal_eq st₁ q,
                        Nat.mod_eq_of_lt hv1]
                    refine ih _ st₂ ?_ (by rw [hgt1]; omega) (by rw [hgt1]; omega)
                    intro id2 hid2
                    rcases List.mem_cons.mp hid2 with h3 | h3
                    · exact h3 ▸ hin2
                    · exact hids id2 h3
                · have hin1 : id ∉ st₁.ids := fun hc => hin2 (hids id hc)
                  rw [show processMessage st₁ (Message.SizeEntry (some id) q s)
                      = AggState.mk (id :: st₁.ids) (addSize st₁.sizes q s) st₁.errors
                      from by simp [processMessage, hin1],
                    show processMessage st₂ (Message.SizeEntry (some id) q s)
                      = AggState.mk (id :: st₂.ids) (addSize st₂.sizes q s) st₂.errors
                      from by simp [processMessage, hin2]]
                  have hgt1 : getTotal
                      (AggState.mk (id :: st₁.ids) (addSize st₁.sizes q s) st₁.errors) q
                        = getTotal st₁ q + s := by
                    rw [getTotal_eq]
                    show (findSize (addSize st₁.sizes q s) q).getD 0 = _
                    rw [getTotal_addSize_self q hsM, ← getTotal_eq st₁ q,
                      Nat.mod_eq_of_lt hv1]
                  have hgt2 : getTotal
                      (AggState.mk (id :: st₂.ids) (addSize st₂.sizes q s) st₂.errors) q
                        = getTotal st₂ q + s := by
                    rw [getTotal_eq]
                    show (findSize (addSize st₂.sizes q s) q).getD 0 = _
                    rw [getTotal_addSize_self q hsM, ← getTotal_eq st₂ q,
                      Nat.mod_eq_of_lt hv2]
                  refine ih _ _ ?_ (by rw [hgt1, hgt2]; omega)
                    (by rw [hgt1]; omega)
                  intro id2 hid2
                  rcases List.mem_cons.mp hid2 with h3 | h3
                  · exact h3 ▸ List.mem_cons_self _ _
                  · exact List.mem_cons_of_mem _ (hids id2 h3)
            | none =>
                rw [show processMessage st₁ (Message.SizeEntry none q s)
                    = AggState.mk st₁.ids (addSize st₁.sizes q s) st₁.errors
                    from rfl,
                  show processMessage st₂ (Message.SizeEntry none q s)
                    = AggState.mk st₂.ids (addSize st₂.sizes q s) st₂.errors
                    from rfl]
                have hgt1 : getTotal
                    (AggState.mk st₁.ids (addSize st₁.sizes q s) st₁.errors) q
                      = getTotal st₁ q + s := by
                  rw [getTotal_eq]
                  show (findSize (addSize st₁.sizes q s) q).getD 0 = _
                  rw [getTotal_addSize_self q hsM, ← getTotal_eq st₁ q,
                    Nat.mod_eq_of_lt hv1]
                have hgt2 : getTotal
                    (AggState.mk st₂.ids (addSize st₂.sizes q s) st₂.errors) q
                      = getTotal st₂ q + s := by
                  rw [getTotal_eq]
                  show (findSize (addSize st₂.sizes q s) q).getD 0 = _
                  rw [getTotal_addSize_self q hsM, ← getTotal_eq st₂ q,
                    Nat.mod_eq_of_lt hv2]
                exact ih _ _ hids (by rw [hgt1, hgt2]; omega)
                  (by rw [hgt1]; omega)
          · rw [rSizes_cons_ne _ _ _ hq] at hbound
            have hkeep : ∀ st : AggState,
                getTotal (AggState.mk st.ids (addSize st.sizes q s) st.errors) r
                  = getTotal st r := fun st => by
              rw [getTotal_eq]
              show (findSize (addSize st.sizes q s) r).getD 0 = _
              rw [findSize_addSize_ne _ s hq]
              rfl
            cases oid with
            | some id =>
                by_cases hin2 : id ∈ st₂.ids
                · by_cases hin1 : id ∈ st₁.ids
                  · rw [show processMessage st₁ (Message.SizeEntry (some id) q s) = st₁
                        from by simp [processMessage, hin1],
                      show processMessage st₂ (Message.SizeEntry (some id) q s) = st₂
                        from by simp [processMessage, hin2]]
                    exact ih st₁ st₂ hids hle hbound
                  · rw [show processMessage st₁ (Message.SizeEntry (some id) q s)
                        = AggState.mk (id :: st₁.ids) (addSize st₁.sizes q s) st₁.errors
                        from by simp [processMessage, hin1],
                      show processMessage st₂ (Message.SizeEntry (some id) q s) = st₂
                        from by simp [processMessage, hin2]]
                    have h1 := hkeep st₁
                    refine ih _ st₂ ?_ (by
                        rw [show getTotal (AggState.mk (id :: st₁.ids)
                            (addSize st₁.sizes q s) st₁.errors) r
                          = getTotal (AggState.mk st₁.ids
                            (addSize st₁.sizes q s) st₁.errors) r from rfl, h1]
                        exact hle)
                      (by
                        rw [show getTotal (AggState.mk (id :: st₁.ids)
                            (addSize st₁.sizes q s) st₁.errors) r
                          = getTotal (AggState.mk st₁.ids
                            (addSize st₁.sizes q s) st₁.errors) r from rfl, h1]
                        exact hbound)
                    intro id2 hid2
                    rcases List.mem_cons.mp hid2 with h3 | h3
                    · exact h3 ▸ hin2
                    · exact hids id2 h3
                · have hin1 : id ∉ st₁.ids := fun hc => hin2 (hids id hc)
                  rw [show processMessage st₁ (Message.SizeEntry (some id) q s)
                      = AggState.mk (id :: st₁.ids) (addSize st₁.sizes q s) st₁.errors
                      from by simp [processMessage, hin1],
                    show processMessage st₂ (Message.SizeEntry (some id) q s)
                      = AggState.mk (id :: st₂.ids) (addSize st₂.sizes q s) st₂.errors
                      from by simp [processMessage, hin2]]
                  have h1 := hkeep st₁
                  have h2 := hkeep st₂
                  refine ih _ _ ?_ (by
                      rw [show getTotal (AggState.mk (id :: st₁.ids)
                          (addSize st₁.sizes q s) st₁.errors) r
                        = getTotal (AggState.mk st₁.ids
                          (addSize st₁.sizes q s) st₁.errors) r from rfl, h1,
                        show getTotal (AggState.mk (id :: st₂.ids)
                          (addSize st₂.sizes q s) st₂.errors) r
                        = getTotal (AggState.mk st₂.ids
                          (addSize st₂.sizes q s) st₂.errors) r from rfl, h2]
                      exact hle)
                    (by
                      rw [show getTotal (AggState.mk (id :: st₁.ids)
                          (addSize st₁.sizes q s) st₁.errors) r
                        = getTotal (AggState.mk st₁.ids
                          (addSize st₁.sizes q s) st₁.errors) r from rfl, h1]
                      exact hbound)
                  intro id2 hid2
                  rcases List.mem_cons.mp hid2 with h3 | h3
                  · exact h3 ▸ List.mem_cons_self _ _
                  · exact List.mem_cons_of_mem _ (hids id2 h3)
            | none =>
                rw [show processMessage st₁ (Message.SizeEntry none q s)
                    = AggState.mk st₁.ids (addSize st₁.sizes q s) st₁.errors
                    from rfl,
                  show processMessage st₂ (Message.SizeEntry none q s)
                    = AggState.mk st₂.ids (addSize st₂.sizes q s) st₂.errors
                    from rfl]
                exact ih _ _ hids (by rw [hkeep st₁, hkeep st₂]; exact hle)
                  (by rw [hkeep st₁]; exact hbound)
      | FinishedEntry p =>
          rw [rSizes_cons_fin] at hbound
          rw [show processMessage st₁ (Message.FinishedEntry p) = st₁ from rfl,
            show processMessage st₂ (Message.FinishedEntry p) = st₂ from rfl]
          exact ih st₁ st₂ hids hle hbound
      | Error e =>
          rw [rSizes_cons_err] at hbound
          rw [show processMessage st₁ (Message.Error e)
              = AggState.mk st₁.ids st₁.sizes (st₁.errors ++ [e]) from rfl,
            show processMessage st₂ (Message.Error e)
              = AggState.mk st₂.ids st₂.sizes (st₂.errors ++ [e]) from rfl]
          exact ih _ _ hids hle hbound

theorem walk_zero (t : FilesizeType) (r : FsPath) (e : FSEntry) :
    walk t r 0 [(r, e)] = walkEntry t r r e ++ [Message.FinishedEntry r] := by
  simp [walk]

theorem trace_no_other_size (t : FilesizeType) {q r : FsPath} (e : FSEntry)
    (h : q ≠ r) : ∀ id s, Message.SizeEntry id r s ∉ walk t q 0 [(q, e)] := by
  intro id s hmem
  rw [walk_zero] at hmem
  rcases List.mem_append.mp hmem with h1 | h1
  · rcases walkEntry_label t q q e _ h1 with h2 | h2 <;>
      simp [Message.rootLabel] at h2
    exact h h2.symm
  · simp at h1

theorem trace_no_other_fin (t : FilesizeType) {q r : FsPath} (e : FSEntry)
    (h : q ≠ r) : Message.FinishedEntry r ∉ walk t q 0 [(q, e)] := by
  intro hmem
  rw [walk_zero] at hmem
  rcases List.mem_append.mp hmem with h1 | h1
  · exact walkEntry_no_fin t r q q e h1
  · simp at h1
    exact h h1.symm

theorem trace_filter_ne (t : FilesizeType) {q r : FsPath} (e : FSEntry)
    (h : q ≠ r) : (walk t q 0 [(q, e)]).filter (belongsTo r) = [] := by
  rw [List.filter_eq_nil_iff]
  intro m hm
  rw [walk_zero] at hm
  rcases List.mem_append.mp hm with h1 | h1
  · rcases walkEntry_label t q q e _ h1 with h2 | h2 <;>
      simp [belongsTo, h2]
    exact h
  · simp at h1
    subst h1
    simp [belongsTo, Message.rootLabel]
    exact h

theorem trace_nonRIds (t : FilesizeType) (r : FsPath) (e : FSEntry) :
    nonRIds r (walk t r 0 [(r, e)]) = [] := by
  by_contra hne
  rcases List.exists_mem_of_ne_nil _ hne with ⟨id, hid⟩
  rcases mem_nonRIds_iff.mp hid with ⟨q, s, hq, hm⟩
  rw [walk_zero] at hm
  rcases List.mem_append.mp hm with h1 | h1
  · rcases walkEntry_label t r r e _ h1 with h2 | h2 <;>
      simp [Message.rootLabel] at h2
    exact hq h2
  · simp at h1

theorem mem_presentIds_of_rIds {id : UniqueID} {r : FsPath}
    {msgs : List Message} (h : id ∈ rIds r msgs) : id ∈ presentIds msgs := by
  rcases mem_rIds_iff.mp h with ⟨s, hm⟩
  exact mem_presentIds_iff.mpr ⟨r, s, hm⟩

theorem presentIds_trace_sub (t : FilesizeType) (r : FsPath) (e : FSEntry) :
    ∀ id ∈ presentIds (walk t r 0 [(r, e)]), id ∈ e.treeIds := by
  intro id hid
  rw [walk_zero, presentIds_append] at hid
  rcases List.mem_append.mp hid with h1 | h1
  · exact (presentIds_walkEntry t r r e).mem h1
  · simp [presentIds] at h1

theorem append_cons_eq_append_singleton {α : Type} {a : α} :
    ∀ (l₁ : List α) (body : List α) (l₂ : List α), a ∉ l₁ → a ∉ body →
      l₁ ++ a :: l₂ = body ++ [a] → l₂ = [] := by
  intro l₁
  induction l₁ with
  | nil =>
      intro body l₂ _ hb he
      cases body with
      | nil => simpa using he
      | cons b body =>
          simp at he
          exact absurd (he.1 ▸ List.mem_cons_self b body) hb
  | cons x l₁ ih =>
      intro body l₂ hx hb he
      cases body with
      | nil => simp at he
      | cons b body =>
          simp at he
          exact ih body l₂ (fun hc => hx (List.mem_cons_of_mem _ hc))
            (fun hc => hb (List.mem_cons_of_mem _ hc)) he.2

/-- C5: for a directory entry whose children cannot be listed, the walk
emits the entry's own `SizeEntry` followed by exactly one
unreadable-directory `Error` for that path, recurses no further (those
two messages are all of its output), and the entry's own size still
reaches its root's total. -/
theorem c5_unreadable_dir (t : FilesizeType) (root p : FsPath)
    (meta : Metadata) (hdir : meta.isDir = true) :
    walkEntry t root p (FSEntry.presentNoList meta)
      = [Message.SizeEntry (generate_unique_id meta) root (t.size meta),
         Message.Error (Error.CouldNotReadDir p)]
    ∧ (walkEntry t root p (FSEntry.presentNoList meta)).count
        (Message.Error (Error.CouldNotReadDir p)) = 1
    ∧ getTotal (runAggregator
        (walk t root 0 [(root, FSEntry.presentNoList meta)])) root
      = t.size meta := by
  refine ⟨by simp [walkEntry, hdir], ?_, ?_⟩
  · simp [walkEntry, hdir, List.count_cons]
  · cases huid : meta.uniqueId <;>
      simp [walk, walkEntry, hdir, runAggregator, processMessage,
        generate_unique_id, huid, addSize, findSize, getTotal]

/-- C6: for an entry whose metadata cannot be read, the walk emits
exactly one inaccessible-path `Error` and nothing else: no `SizeEntry`
is produced for it, it is not recursed into, and it contributes nothing
to any root's total. -/
theorem c6_inaccessible_entry (t : FilesizeType) (root p : FsPath) :
    walkEntry t root p FSEntry.inaccessible
      = [Message.Error (Error.NoMetadataForPath p)]
    ∧ (∀ id q s, Message.SizeEntry id q s ∉ walkEntry t root p FSEntry.inaccessible)
    ∧ (∀ q, getTotal (runAggregator
        (walk t root 0 [(root, FSEntry.inaccessible)])) q = 0) := by
  refine ⟨rfl, by simp [walkEntry], ?_⟩
  intro q
  simp [walk, walkEntry, runAggregator, processMessage, getTotal, findSize]

theorem walkItems_append_assoc (t : FilesizeType) (root p : FsPath) :
    ∀ a b : Items, walkItems t root p (a.append b)
      = walkItems t root p a ++ walkItems t root p b
  | .nil, b => by simp [Items.append, walkItems]
  | .cons none c rest, b => by
      simpa [Items.append, walkItems] using walkItems_append_assoc t root p rest b
  | .cons (some n) c rest, b => by
      simp [Items.append, walkItems, walkItems_append_assoc t root p rest b]

/-- C8: an `Err` item in a directory listing is silently discarded by
`flatten()`: the walk's output with the failed item is identical to its
output without it — no error message mentions it, the child below it is
never visited, and every root total is unchanged. -/
theorem c8_failed_dir_entry_silently_skipped (t : FilesizeType)
    (root p : FsPath) (meta : Metadata) (c : FSEntry)
    (items₁ items₂ : Items) :
    walkEntry t root p
        (FSEntry.presentList meta (items₁.append (Items.cons none c items₂)))
      = walkEntry t root p (FSEntry.presentList meta (items₁.append items₂))
    ∧ ∀ q, getTotal (runAggregator (walk t root 0 [(root,
        FSEntry.presentList meta (items₁.append (Items.cons none c items₂)))])) q
      = getTotal (runAggregator (walk t root 0 [(root,
        FSEntry.presentList meta (items₁.append items₂))])) q := by
  have hitems : ∀ q2 : FsPath,
      walkItems t root q2 (items₁.append (Items.cons none c items₂))
        = walkItems t root q2 (items₁.append items₂) := by
    intro q2
    rw [walkItems_append_assoc, walkItems_append_assoc]
    simp [walkItems]
  have hmain : walkEntry t root p
      (FSEntry.presentList meta (items₁.append (Items.cons none c items₂)))
        = walkEntry t root p (FSEntry.presentList meta (items₁.append items₂)) := by
    by_cases h : meta.isDir <;> simp [walkEntry, h, hitems p]
  refine ⟨hmain, fun q => ?_⟩
  have hmain2 : walkEntry t root root
      (FSEntry.presentList meta (items₁.append (Items.cons none c items₂)))
        = walkEntry t root root (FSEntry.presentList meta (items₁.append items₂)) := by
    by_cases h : meta.isDir <;> simp [walkEntry, h, hitems root]
  rw [walk_zero, walk_zero, hmain2]

/-- C10: processing an `Error` in the batch aggregator only appends to
the error list (seen ids and the size map are untouched); processing any
message never removes a seen id and, absent `u64` overflow on `r`'s
slot, never decreases `r`'s total. -/
theorem c10_error_only_appends (st : AggState) (e : Error) (m : Message)
    (r : FsPath)
    (h : ∀ id s, m = Message.SizeEntry id r s → getTotal st r + s < U64MOD) :
    processMessage st (Message.Error e)
      = AggState.mk st.ids st.sizes (st.errors ++ [e])
    ∧ (∀ id ∈ st.ids, id ∈ (processMessage st m).ids)
    ∧ getTotal st r ≤ getTotal (processMessage st m) r := by
  refine ⟨rfl, step_ids_mono m, ?_⟩
  cases m with
  | SizeEntry oid q s =>
      by_cases hq : q = r
      · subst hq
        have hb : getTotal st q + s < U64MOD := h oid s rfl
        have hsM : s < U64MOD := by omega
        have hkey : getTotal st q
            ≤ (findSize (addSize st.sizes q s) q).getD 0 := by
          rw [getTotal_addSize_self q hsM, ← getTotal_eq st q,
            Nat.mod_eq_of_lt hb]
          omega
        cases oid with
        | some id =>
            by_cases hin : id ∈ st.ids
            · rw [show processMessage st (Message.SizeEntry (some id) q s) = st
                from by simp [processMessage, hin]]
            · rw [show processMessage st (Message.SizeEntry (some id) q s)
                = AggState.mk (id :: st.ids) (addSize st.sizes q s) st.errors
                from by simp [processMessage, hin]]
              exact hkey
        | none =>
            rw [show processMessage st (Message.SizeEntry none q s)
              = AggState.mk st.ids (addSize st.sizes q s) st.errors from rfl]
            exact hkey
      · have hkey : (findSize (addSize st.sizes q s) r).getD 0 = getTotal st r := by
          rw [findSize_addSize_ne _ s hq]
          rfl
        cases oid with
        | some id =>
            by_cases hin : id ∈ st.ids
            · rw [show processMessage st (Message.SizeEntry (some id) q s) = st
                from by simp [processMessage, hin]]
            · rw [show processMessage st (Message.SizeEntry (some id) q s)
                = AggState.mk (id :: st.ids) (addSize st.sizes q s) st.errors
                from by simp [processMessage, hin]]
              exact le_of_eq hkey.symm
        | none =>
            rw [show processMessage st (Message.SizeEntry none q s)
              = AggState.mk st.ids (addSize st.sizes q s) st.errors from rfl]
            exact le_of_eq hkey.symm
  | FinishedEntry p => exact le_refl _
  | Error e2 => exact le_refl _

theorem c10_witness :
    processMessage (AggState.mk [] [] []) (Message.Error (Error.CouldNotReadDir ["x"]))
      = AggState.mk [] [] ([] ++ [Error.CouldNotReadDir ["x"]])
    ∧ (∀ id ∈ (AggState.mk [] [] [] : AggState).ids,
        id ∈ (processMessage (AggState.mk [] [] [])
          (Message.SizeEntry none ["x"] 5)).ids)
    ∧ getTotal (AggState.mk [] [] []) ["x"]
        ≤ getTotal (processMessage (AggState.mk [] [] [])
          (Message.SizeEntry none ["x"] 5)) ["x"] :=
  c10_error_only_appends (AggState.mk [] [] []) (Error.CouldNotReadDir ["x"])
    (Message.SizeEntry none ["x"] 5) ["x"]
    (by
      intro id s he
      cases he
      show getTotal (AggState.mk [] [] []) ["x"] + 5 < U64MOD
      norm_num [getTotal, findSize, U64MOD])

/-- The invariant behind C9's streaming half: if a stream carries no
`SizeEntry` for `r`, the streaming receiver never prints a result line
for `r`. -/
theorem printStep_fold_no_r (r : FsPath) (msgs : List Message) :
    ∀ (st : AggState) (out : List (FsPath × Nat)),
      (∀ id s, Message.SizeEntry id r s ∉ msgs) →
      findSize st.sizes r = none →
      (∀ s, (r, s) ∉ out) →
      ∀ s, (r, s) ∉ (msgs.foldl printStep (st, out)).2 := by
  induction msgs with
  | nil => intro st out _ _ hout s; exact hout s
  | cons m rest ih =>
      intro st out h hfs hout s
      rw [List.foldl_cons]
      cases m with
      | SizeEntry oid q s2 =>
          have hq : q ≠ r := fun hqr =>
            h oid s2 (hqr ▸ List.mem_cons_self _ _)
          refine ih _ _ (fun id s3 hc => h id s3 (List.mem_cons_of_mem _ hc))
            ?_ hout s
          show findSize (processMessage st (Message.SizeEntry oid q s2)).sizes r
            = none
          rw [step_sizes_other r (by simp [belongsTo, Message.rootLabel, hq])]
          exact hfs
      | FinishedEntry p =>
          refine ih _ _ (fun id s3 hc => h id s3 (List.mem_cons_of_mem _ hc))
            hfs ?_ s
          intro s3 hc
          by_cases hpr : p = r
          · subst hpr
            simp [printStep, hfs] at hc
            exact hout s3 hc
          · simp [printStep] at hc
            cases hfp : findSize st.sizes p with
            | none =>
                rw [hfp] at hc
                exact hout s3 hc
            | some v =>
                rw [hfp] at hc
                rcases List.mem_append.mp hc with h1 | h1
                · exact hout s3 h1
                · simp at h1
                  exact hpr h1.1.symm
      | Error e =>
          exact ih _ _ (fun id s3 hc => h id s3 (List.mem_cons_of_mem _ hc))
            hfs hout s

/-- C9: a root for which no `SizeEntry` is ever produced has no entry at
all in the batch result map (not a zero entry), and the streaming
receiver prints no result line for it. -/
theorem c9_no_size_entry_no_result (msgs : List Message) (r : FsPath)
    (h : ∀ id s, Message.SizeEntry id r s ∉ msgs) :
    findSize (runAggregator msgs).sizes r = none
    ∧ ∀ s, (r, s) ∉ runAndPrintOutputs msgs := by
  constructor
  · rw [show runAggregator msgs
      = msgs.foldl processMessage (AggState.mk [] [] []) from rfl,
      foldl_sizes_frame r _ h]
    rfl
  · exact printStep_fold_no_r r msgs _ _ h rfl (by simp)

theorem c9_witness :
    findSize (runAggregator
      (walk FilesizeType.DiskUsage ["x"] 0 [(["x"], FSEntry.inaccessible)])).sizes
      ["x"] = none
    ∧ (["x"], 7) ∉ runAndPrintOutputs
      (walk FilesizeType.DiskUsage ["x"] 0 [(["x"], FSEntry.inaccessible)]) := by
  have h := c9_no_size_entry_no_result
    (walk FilesizeType.DiskUsage ["x"] 0 [(["x"], FSEntry.inaccessible)]) ["x"]
    (by intro id s hc; simp [walk, walkEntry] at hc)
  exact ⟨h.1, h.2 7⟩

/-- C1: the shared seen-id set deduplicates by first arrival: once a
`SizeEntry` with some present id has been processed, any later
`SizeEntry` with the same id is a complete no-op for the aggregator,
whichever roots the two were discovered under; the first occurrence of
an id adds its size to its root's total; and an absent-id `SizeEntry`
always adds its size to its root's total. -/
theorem c1_dedup_first_occurrence (σ₁ σ₂ : List Message) (id : UniqueID)
    (r₁ r₂ : FsPath) (s₁ s₂ : Nat) :
    (Message.SizeEntry (some id) r₁ s₁ ∈ σ₁ →
      runAggregator (σ₁ ++ Message.SizeEntry (some id) r₂ s₂ :: σ₂)
        = runAggregator (σ₁ ++ σ₂))
    ∧ ((∀ q s, Message.SizeEntry (some id) q s ∉ σ₁) → s₂ < U64MOD →
      getTotal (runAggregator (σ₁ ++ [Message.SizeEntry (some id) r₂ s₂])) r₂
        = (getTotal (runAggregator σ₁) r₂ + s₂) % U64MOD)
    ∧ (s₂ < U64MOD →
      getTotal (runAggregator (σ₁ ++ [Message.SizeEntry none r₂ s₂])) r₂
        = (getTotal (runAggregator σ₁) r₂ + s₂) % U64MOD) := by
  refine ⟨?_, ?_, ?_⟩
  · intro hmem
    show (σ₁ ++ Message.SizeEntry (some id) r₂ s₂ :: σ₂).foldl processMessage
        (AggState.mk [] [] [])
      = (σ₁ ++ σ₂).foldl processMessage (AggState.mk [] [] [])
    rw [List.foldl_append, List.foldl_append, List.foldl_cons]
    have hin : id ∈ (σ₁.foldl processMessage (AggState.mk [] [] [])).ids :=
      mem_foldl_ids_of_mem _ hmem
    rw [show processMessage (σ₁.foldl processMessage (AggState.mk [] [] []))
        (Message.SizeEntry (some id) r₂ s₂)
      = σ₁.foldl processMessage (AggState.mk [] [] [])
      from by simp [processMessage, hin]]
  · intro hnone hs
    have hnin : id ∉ (runAggregator σ₁).ids := by
      intro hc
      rcases foldl_ids_sub σ₁ _ id hc with h1 | h1
      · simp at h1
      · rcases mem_presentIds_iff.mp h1 with ⟨q, s, hm⟩
        exact hnone q s hm
    have happ : runAggregator (σ₁ ++ [Message.SizeEntry (some id) r₂ s₂])
        = processMessage (runAggregator σ₁)
            (Message.SizeEntry (some id) r₂ s₂) := by
      show (σ₁ ++ [Message.SizeEntry (some id) r₂ s₂]).foldl processMessage
          (AggState.mk [] [] []) = _
      rw [List.foldl_append]
      rfl
    rw [happ,
      show processMessage (runAggregator σ₁) (Message.SizeEntry (some id) r₂ s₂)
        = AggState.mk (id :: (runAggregator σ₁).ids)
            (addSize (runAggregator σ₁).sizes r₂ s₂) (runAggregator σ₁).errors
        from by simp [processMessage, hnin]]
    show (findSize (addSize (runAggregator σ₁).sizes r₂ s₂) r₂).getD 0 = _
    rw [getTotal_addSize_self r₂ hs]
    rfl
  · intro hs
    have happ : runAggregator (σ₁ ++ [Message.SizeEntry none r₂ s₂])
        = processMessage (runAggregator σ₁) (Message.SizeEntry none r₂ s₂) := by
      show (σ₁ ++ [Message.SizeEntry none r₂ s₂]).foldl processMessage
          (AggState.mk [] [] []) = _
      rw [List.foldl_append]
      rfl
    rw [happ,
      show processMessage (runAggregator σ₁) (Message.SizeEntry none r₂ s₂)
        = AggState.mk (runAggregator σ₁).ids
            (addSize (runAggregator σ₁).sizes r₂ s₂) (runAggregator σ₁).errors
        from rfl]
    show (findSize (addSize (runAggregator σ₁).sizes r₂ s₂) r₂).getD 0 = _
    rw [getTotal_addSize_self r₂ hs]
    rfl

theorem c1_witness :
    runAggregator [Message.SizeEntry (some (UniqueID.mk 1 2)) ["p"] 5,
        Message.SizeEntry (some (UniqueID.mk 1 2)) ["q"] 3]
      = runAggregator [Message.SizeEntry (some (UniqueID.mk 1 2)) ["p"] 5]
    ∧ getTotal (runAggregator [Message.Error (Error.NoMetadataForPath ["p"]),
        Message.SizeEntry (some (UniqueID.mk 1 2)) ["q"] 3]) ["q"]
      = (getTotal (runAggregator [Message.Error (Error.NoMetadataForPath ["p"])]) ["q"]
          + 3) % U64MOD
    ∧ getTotal (runAggregator [Message.SizeEntry (some (UniqueID.mk 1 2)) ["p"] 5,
        Message.SizeEntry none ["q"] 3]) ["q"]
      = (getTotal (runAggregator
          [Message.SizeEntry (some (UniqueID.mk 1 2)) ["p"] 5]) ["q"]
          + 3) % U64MOD := by
  refine ⟨?_, ?_, ?_⟩
  · exact (c1_dedup_first_occurrence
      [Message.SizeEntry (some (UniqueID.mk 1 2)) ["p"] 5] []
      (UniqueID.mk 1 2) ["p"] ["q"] 5 3).1 (List.mem_cons_self _ _)
  · exact (c1_dedup_first_occurrence
      [Message.Error (Error.NoMetadataForPath ["p"])] []
      (UniqueID.mk 1 2) ["p"] ["q"] 5 3).2.1
      (by intro q s hc; simp at hc)
      (by norm_num [U64MOD])
  · exact (c1_dedup_first_occurrence
      [Message.SizeEntry (some (UniqueID.mk 1 2)) ["p"] 5] []
      (UniqueID.mk 1 2) ["p"] ["q"] 5 3).2.2
      (by norm_num [U64MOD])

/-- C4: over a fully readable tree with no hard links (pairwise distinct
present ids), an apparent-size scan of that tree as a single root yields
exactly the tree's total logical size. -/
theorem c4_apparent_size_total (r : FsPath) (e : FSEntry)
    (hread : e.readable = true) (hnd : e.treeIds.Nodup)
    (hS : e.sumLen < U64MOD) :
    getTotal (scanRun FilesizeType.ApparentSize [(r, e)]) r = e.sumLen := by
  have hm : scanMessages FilesizeType.ApparentSize [(r, e)]
      = walkEntry FilesizeType.ApparentSize r r e
        ++ [Message.FinishedEntry r] := by
    simp [scanMessages, scanTraces, walk]
  have hsum : (rSizes r (walkEntry FilesizeType.ApparentSize r r e)).sum
      = e.sumLen := rSizes_walkEntry_sum r r e hread
  have hrs : rSizes r (walkEntry FilesizeType.ApparentSize r r e
        ++ [Message.FinishedEntry r])
      = rSizes r (walkEntry FilesizeType.ApparentSize r r e) := by
    rw [rSizes_append]
    simp [rSizes]
  have hpres : presentIds (walkEntry FilesizeType.ApparentSize r r e
        ++ [Message.FinishedEntry r])
      = presentIds (walkEntry FilesizeType.ApparentSize r r e) := by
    rw [presentIds_append]
    simp [presentIds]
  have hnodup : (presentIds (walkEntry FilesizeType.ApparentSize r r e
      ++ [Message.FinishedEntry r])).Nodup := by
    rw [hpres]
    exact List.Nodup.sublist (presentIds_walkEntry _ r r e) hnd
  have hcore := agg_total_sum r
    (walkEntry FilesizeType.ApparentSize r r e ++ [Message.FinishedEntry r])
    (AggState.mk [] [] []) hnodup
    (fun id _ hc => List.not_mem_nil id hc)
    (fun s hs => by
      rw [hrs] at hs
      exact lt_of_le_of_lt
        (List.single_le_sum (fun x _ => Nat.zero_le x) s hs)
        (hsum ▸ hS))
    U64MOD_pos
  rw [show scanRun FilesizeType.ApparentSize [(r, e)]
      = runAggregator (scanMessages FilesizeType.ApparentSize [(r, e)])
      from rfl, hm,
    show runAggregator (walkEntry FilesizeType.ApparentSize r r e
        ++ [Message.FinishedEntry r])
      = (walkEntry FilesizeType.ApparentSize r r e
        ++ [Message.FinishedEntry r]).foldl processMessage
          (AggState.mk [] [] []) from rfl,
    hcore, hrs, hsum]
  show (0 + e.sumLen) % U64MOD = e.sumLen
  rw [Nat.zero_add, Nat.mod_eq_of_lt hS]

def c4wTree : FSEntry :=
  FSEntry.presentList (Metadata.mk true 3 10 none)
    (Items.cons (some "f")
      (FSEntry.presentNoList (Metadata.mk false 4 8 (some (UniqueID.mk 1 2))))
      Items.nil)

theorem c4_witness :
    FSEntry.readable c4wTree = true
    ∧ (FSEntry.treeIds c4wTree).Nodup
    ∧ FSEntry.sumLen c4wTree < U64MOD
    ∧ getTotal (scanRun FilesizeType.ApparentSize [(["r"], c4wTree)]) ["r"]
        = FSEntry.sumLen c4wTree :=
  ⟨by decide, by decide, by decide,
    c4_apparent_size_total ["r"] c4wTree (by decide) (by decide) (by decide)⟩

/-- C2: in every interleaved stream of a scan with distinct roots, a
root's `FinishedEntry` appears exactly once; within the root's own trace
it comes after all of the subtree's messages; and in the full stream no
`SizeEntry` for that root follows it, so the root's running total at
that instant is already its final total. -/
theorem c2_finished_root_is_final (t : FilesizeType)
    (roots : List (FsPath × FSEntry)) (r : FsPath) (e : FSEntry)
    (σ σ₁ σ₂ : List Message)
    (hnd : (roots.map Prod.fst).Nodup)
    (hmem : (r, e) ∈ roots)
    (hσ : NShuffle (scanTraces t roots) σ) :
    walk t r 0 [(r, e)] = walkEntry t r r e ++ [Message.FinishedEntry r]
    ∧ Message.FinishedEntry r ∉ walkEntry t r r e
    ∧ σ.count (Message.FinishedEntry r) = 1
    ∧ (σ = σ₁ ++ Message.FinishedEntry r :: σ₂ →
        (∀ id s, Message.SizeEntry id r s ∉ σ₂)
        ∧ getTotal (runAggregator σ₁) r = getTotal (runAggregator σ) r) := by
  rcases List.append_of_mem hmem with ⟨l₁, l₂, hroots⟩
  subst hroots
  have hts : scanTraces t (l₁ ++ (r, e) :: l₂)
      = (l₁.map fun re => walk t re.1 0 [re])
        ++ walk t r 0 [(r, e)] :: (l₂.map fun re => walk t re.1 0 [re]) := by
    simp [scanTraces]
  rw [hts] at hσ
  have hnd2 : (r :: (l₁.map Prod.fst ++ l₂.map Prod.fst)).Nodup := by
    rw [List.map_append, List.map_cons] at hnd
    exact (List.nodup_middle).mp hnd
  have hrne : ∀ re ∈ l₁ ++ l₂, re.1 ≠ r := by
    intro re hre he
    apply (List.nodup_cons.mp hnd2).1
    rw [← List.map_append]
    exact List.mem_map.mpr ⟨re, hre, he⟩
  have hcnt1 : (walk t r 0 [(r, e)]).count (Message.FinishedEntry r) = 1 := by
    rw [walk_zero, List.count_append,
      List.count_eq_zero.mpr (walkEntry_no_fin t r r r e)]
    simp
  have hcnt0 : ∀ (l : List (FsPath × FSEntry)), (∀ re ∈ l, re.1 ≠ r) →
      (((l.map fun re => walk t re.1 0 [re]).map
        (List.count (Message.FinishedEntry r))).sum = 0) := by
    intro l hl
    apply List.sum_eq_zero
    intro x hx
    rw [List.map_map] at hx
    rcases List.mem_map.mp hx with ⟨⟨q, e2⟩, hre, rfl⟩
    exact List.count_eq_zero.mpr (trace_no_other_fin t e2 (hl _ hre))
  have hcount : σ.count (Message.FinishedEntry r) = 1 := by
    rw [nshuffle_count_sum hσ (Message.FinishedEntry r), List.map_append,
      List.map_cons, List.sum_append, List.sum_cons, hcnt1,
      hcnt0 l₁ (fun re hre => hrne re (List.mem_append.mpr (Or.inl hre))),
      hcnt0 l₂ (fun re hre => hrne re (List.mem_append.mpr (Or.inr hre)))]
    omega
  refine ⟨walk_zero t r e, walkEntry_no_fin t r r r e, hcount, ?_⟩
  intro hsplit
  have hnot12 : Message.FinishedEntry r ∉ σ₁
      ∧ Message.FinishedEntry r ∉ σ₂ := by
    rw [hsplit, List.count_append, List.count_cons_self] at hcount
    constructor
    · exact List.count_eq_zero.mp (by omega)
    · exact List.count_eq_zero.mp (by omega)
  have hfil : σ.filter (belongsTo r)
      = (walk t r 0 [(r, e)]).filter (belongsTo r) := by
    apply nshuffle_filter_single (belongsTo r) hσ
    intro v hv
    rcases List.mem_append.mp hv with hv1 | hv1 <;>
      rcases List.mem_map.mp hv1 with ⟨⟨q, e2⟩, hre, rfl⟩
    · exact trace_filter_ne t e2 (hrne _ (List.mem_append.mpr (Or.inl hre)))
    · exact trace_filter_ne t e2 (hrne _ (List.mem_append.mpr (Or.inr hre)))
  have hfil2 : (walk t r 0 [(r, e)]).filter (belongsTo r)
      = (walkEntry t r r e).filter (belongsTo r)
        ++ [Message.FinishedEntry r] := by
    rw [walk_zero, List.filter_append]
    simp [belongsTo, Message.rootLabel]
  have hsplitf : σ₁.filter (belongsTo r)
      ++ Message.FinishedEntry r :: σ₂.filter (belongsTo r)
      = (walkEntry t r r e).filter (belongsTo r)
        ++ [Message.FinishedEntry r] := by
    rw [← hfil2, ← hfil, hsplit, List.filter_append, List.filter_cons]
    simp [belongsTo, Message.rootLabel]
  have hempty : σ₂.filter (belongsTo r) = [] :=
    append_cons_eq_append_singleton _ _ _
      (fun hc => hnot12.1 (List.mem_filter.mp hc).1)
      (fun hc => walkEntry_no_fin t r r r e (List.mem_filter.mp hc).1)
      hsplitf
  have hnos : ∀ id s, Message.SizeEntry id r s ∉ σ₂ := by
    intro id s hc
    have : Message.SizeEntry id r s ∈ σ₂.filter (belongsTo r) :=
      List.mem_filter.mpr ⟨hc, by simp [belongsTo, Message.rootLabel]⟩
    rw [hempty] at this
    simp at this
  refine ⟨hnos, ?_⟩
  have hagg : runAggregator σ
      = σ₂.foldl processMessage (runAggregator σ₁) := by
    rw [hsplit]
    show (σ₁ ++ Message.FinishedEntry r :: σ₂).foldl processMessage
      (AggState.mk [] [] []) = _
    rw [List.foldl_append, List.foldl_cons]
    rfl
  rw [getTotal_eq, getTotal_eq, hagg, foldl_sizes_frame r _ hnos]

def c2wE : FSEntry := FSEntry.presentNoList (Metadata.mk false 4 4 none)

def c2wTrace : List Message :=
  walk FilesizeType.ApparentSize ["a"] 0 [(["a"], c2wE)]

theorem c2_witness :
    c2wTrace.count (Message.FinishedEntry ["a"]) = 1
    ∧ Message.SizeEntry none ["a"] 0 ∉ ([] : List Message)
    ∧ getTotal (runAggregator [Message.SizeEntry none ["a"] 4]) ["a"]
        = getTotal (runAggregator c2wTrace) ["a"] := by
  have h := c2_finished_root_is_final FilesizeType.ApparentSize
    [(["a"], c2wE)] ["a"] c2wE c2wTrace [Message.SizeEntry none ["a"] 4] []
    (by decide) (List.mem_singleton.mpr rfl)
    (NShuffle.cons (shuffle_append_right c2wTrace []) NShuffle.nil)
  have hsplit : c2wTrace = [Message.SizeEntry none ["a"] 4]
      ++ Message.FinishedEntry ["a"] :: [] := rfl
  exact ⟨h.2.2.1, (h.2.2.2 hsplit).1 none 0, (h.2.2.2 hsplit).2⟩

/-- C7: scanning two roots together gives each root the same total as
scanning it alone when the two subtrees share no id; and in general
(hard links shared across the roots, dedup dropping some entries) the
combined scan's sum is at most the sum of the two separate scans,
provided root B's size sum does not overflow `u64`. -/
theorem c7_root_independence (t : FilesizeType) (a b : FsPath)
    (ea eb : FSEntry) (hab : a ≠ b) :
    ((∀ id ∈ ea.treeIds, id ∉ eb.treeIds) →
      getTotal (scanRun t [(a, ea), (b, eb)]) a
          = getTotal (scanRun t [(a, ea)]) a
      ∧ getTotal (scanRun t [(a, ea), (b, eb)]) b
          = getTotal (scanRun t [(b, eb)]) b)
    ∧ ((rSizes b (walk t b 0 [(b, eb)])).sum < U64MOD →
      getTotal (scanRun t [(a, ea), (b, eb)]) a
          + getTotal (scanRun t [(a, ea), (b, eb)]) b
        ≤ getTotal (scanRun t [(a, ea)]) a
          + getTotal (scanRun t [(b, eb)]) b) := by
  have hmsgs : scanMessages t [(a, ea), (b, eb)]
      = walk t a 0 [(a, ea)] ++ walk t b 0 [(b, eb)] := by
    simp [scanMessages, scanTraces]
  have hA : scanMessages t [(a, ea)] = walk t a 0 [(a, ea)] := by
    simp [scanMessages, scanTraces]
  have hB : scanMessages t [(b, eb)] = walk t b 0 [(b, eb)] := by
    simp [scanMessages, scanTraces]
  have hcomb : scanRun t [(a, ea), (b, eb)]
      = (walk t b 0 [(b, eb)]).foldl processMessage
          (runAggregator (walk t a 0 [(a, ea)])) := by
    show runAggregator (scanMessages t [(a, ea), (b, eb)]) = _
    rw [hmsgs]
    show (walk t a 0 [(a, ea)] ++ walk t b 0 [(b, eb)]).foldl processMessage
      (AggState.mk [] [] []) = _
    rw [List.foldl_append]
    rfl
  have halA : scanRun t [(a, ea)] = runAggregator (walk t a 0 [(a, ea)]) := by
    show runAggregator (scanMessages t [(a, ea)]) = _
    rw [hA]
  have halB : scanRun t [(b, eb)] = runAggregator (walk t b 0 [(b, eb)]) := by
    show runAggregator (scanMessages t [(b, eb)]) = _
    rw [hB]
  have fact_a : getTotal (scanRun t [(a, ea), (b, eb)]) a
      = getTotal (scanRun t [(a, ea)]) a := by
    rw [hcomb, halA, getTotal_eq, getTotal_eq,
      foldl_sizes_frame a _ (trace_no_other_size t eb (Ne.symm hab))]
  have fact_bnone : findSize (runAggregator (walk t a 0 [(a, ea)])).sizes b
      = none := by
    rw [show runAggregator (walk t a 0 [(a, ea)])
        = (walk t a 0 [(a, ea)]).foldl processMessage (AggState.mk [] [] [])
        from rfl,
      foldl_sizes_frame b _ (trace_no_other_size t ea hab)]
    rfl
  constructor
  · intro hdisj
    refine ⟨fact_a, ?_⟩
    rw [hcomb, halB, getTotal_eq, getTotal_eq]
    have hcongr := foldl_total_congr b (walk t b 0 [(b, eb)])
      (runAggregator (walk t a 0 [(a, ea)])) (AggState.mk [] [] [])
      (by rw [fact_bnone]; rfl)
      (by
        intro id hid
        constructor
        · intro hc
          rcases foldl_ids_sub (walk t a 0 [(a, ea)]) _ id hc with h1 | h1
          · simp at h1
          · exact absurd (presentIds_trace_sub t b eb id
              (mem_presentIds_of_rIds hid))
              (hdisj id (presentIds_trace_sub t a ea id h1))
        · intro hc
          simp at hc)
      (by
        rw [trace_nonRIds]
        intro id _ hc
        simp at hc)
    exact congrArg (fun o => o.getD 0) hcongr
  · intro hbound
    rw [fact_a]
    have hb : getTotal (scanRun t [(a, ea), (b, eb)]) b
        ≤ getTotal (scanRun t [(b, eb)]) b := by
      rw [hcomb, halB]
      exact foldl_total_mono b (walk t b 0 [(b, eb)])
        (AggState.mk [] [] []) (runAggregator (walk t a 0 [(a, ea)]))
        (fun id hid => by simp at hid)
        (by
          rw [getTotal_eq, getTotal_eq, fact_bnone]
          exact Nat.le_refl _)
        (by
          show getTotal (AggState.mk [] [] []) b + _ < U64MOD
          rw [show getTotal (AggState.mk [] [] []) b = 0 from rfl,
            Nat.zero_add]
          exact hbound)
    exact Nat.add_le_add_left hb _

theorem c7_witness :
    (getTotal (scanRun FilesizeType.ApparentSize
        [(["a"], FSEntry.presentNoList (Metadata.mk false 4 4 (some (UniqueID.mk 1 1)))),
         (["b"], FSEntry.presentNoList (Metadata.mk false 5 5 (some (UniqueID.mk 2 2))))]) ["a"]
      = getTotal (scanRun FilesizeType.ApparentSize
        [(["a"], FSEntry.presentNoList (Metadata.mk false 4 4 (some (UniqueID.mk 1 1))))]) ["a"]
    ∧ getTotal (scanRun FilesizeType.ApparentSize
        [(["a"], FSEntry.presentNoList (Metadata.mk false 4 4 (some (UniqueID.mk 1 1)))),
         (["b"], FSEntry.presentNoList (Metadata.mk false 5 5 (some (UniqueID.mk 2 2))))]) ["b"]
      = getTotal (scanRun FilesizeType.ApparentSize
        [(["b"], FSEntry.presentNoList (Metadata.mk false 5 5 (some (UniqueID.mk 2 2))))]) ["b"])
    ∧ (getTotal (scanRun FilesizeType.ApparentSize
        [(["a"], FSEntry.presentNoList (Metadata.mk false 4 4 (some (UniqueID.mk 1 1)))),
         (["b"], FSEntry.presentNoList (Metadata.mk false 5 5 (some (UniqueID.mk 2 2))))]) ["a"]
        + getTotal (scanRun FilesizeType.ApparentSize
        [(["a"], FSEntry.presentNoList (Metadata.mk false 4 4 (some (UniqueID.mk 1 1)))),
         (["b"], FSEntry.presentNoList (Metadata.mk false 5 5 (some (UniqueID.mk 2 2))))]) ["b"]
      ≤ getTotal (scanRun FilesizeType.ApparentSize
        [(["a"], FSEntry.presentNoList (Metadata.mk false 4 4 (some (UniqueID.mk 1 1))))]) ["a"]
        + getTotal (scanRun FilesizeType.ApparentSize
        [(["b"], FSEntry.presentNoList (Metadata.mk false 5 5 (some (UniqueID.mk 2 2))))]) ["b"]) :=
  ⟨(c7_root_independence FilesizeType.ApparentSize ["a"] ["b"]
      (FSEntry.presentNoList (Metadata.mk false 4 4 (some (UniqueID.mk 1 1))))
      (FSEntry.presentNoList (Metadata.mk false 5 5 (some (UniqueID.mk 2 2))))
      (by decide)).1 (by decide),
   (c7_root_independence FilesizeType.ApparentSize ["a"] ["b"]
      (FSEntry.presentNoList (Metadata.mk false 4 4 (some (UniqueID.mk 1 1))))
      (FSEntry.presentNoList (Metadata.mk false 5 5 (some (UniqueID.mk 2 2))))
      (by decide)).2 (by decide)⟩

/-- C3 (amended): per-root totals are independent of how the
concurrently produced messages interleave on the channel PROVIDED no
unique id occurs under two distinct roots of the scan: every
interleaving gives each root the total of the canonical linearization.
(The unamended claim fails when roots share an inode — see the
counterexample.) -/
theorem c3_totals_deterministic_when_roots_disjoint (t : FilesizeType)
    (roots : List (FsPath × FSEntry)) (σ : List Message) (r : FsPath)
    (e : FSEntry)
    (hnd : (roots.map Prod.fst).Nodup)
    (hpair : roots.Pairwise fun x y => ∀ id ∈ x.2.treeIds, id ∉ y.2.treeIds)
    (hmem : (r, e) ∈ roots)
    (hσ : NShuffle (scanTraces t roots) σ) :
    getTotal (runAggregator σ) r = getTotal (scanRun t roots) r := by
  rcases List.append_of_mem hmem with ⟨l₁, l₂, hroots⟩
  subst hroots
  have hts : scanTraces t (l₁ ++ (r, e) :: l₂)
      = (l₁.map fun re => walk t re.1 0 [re])
        ++ walk t r 0 [(r, e)] :: (l₂.map fun re => walk t re.1 0 [re]) := by
    simp [scanTraces]
  rw [hts] at hσ
  have hnd2 : (r :: (l₁.map Prod.fst ++ l₂.map Prod.fst)).Nodup := by
    rw [List.map_append, List.map_cons] at hnd
    exact (List.nodup_middle).mp hnd
  have hrne : ∀ re ∈ l₁ ++ l₂, re.1 ≠ r := by
    intro re hre he
    apply (List.nodup_cons.mp hnd2).1
    rw [← List.map_append]
    exact List.mem_map.mpr ⟨re, hre, he⟩
  rw [List.pairwise_append] at hpair
  have hbefore : ∀ x ∈ l₁, ∀ id ∈ x.2.treeIds, id ∉ e.treeIds :=
    fun x hx => hpair.2.2 x hx (r, e) (List.mem_cons_self _ _)
  have hafter : ∀ y ∈ l₂, ∀ id ∈ e.treeIds, id ∉ y.2.treeIds := by
    intro y hy
    exact (List.pairwise_cons.mp hpair.2.1).1 y hy
  have hsep : ∀ id ∈ rIds r (walk t r 0 [(r, e)]),
      id ∉ nonRIds r (walk t r 0 [(r, e)]) := by
    rw [trace_nonRIds]
    intro id _ hc
    simp at hc
  have hothers : ∀ v ∈ (l₁.map fun re => walk t re.1 0 [re])
      ++ (l₂.map fun re => walk t re.1 0 [re]),
      (∀ m ∈ v, belongsTo r m = false)
      ∧ (∀ id ∈ presentIds v, id ∉ rIds r (walk t r 0 [(r, e)])) := by
    intro v hv
    have hlab : ∀ (q : FsPath) (e2 : FSEntry), q ≠ r →
        ∀ m ∈ walk t q 0 [(q, e2)], belongsTo r m = false := by
      intro q e2 hq m hm
      have := List.filter_eq_nil_iff.mp (trace_filter_ne t e2 hq) m hm
      exact Bool.eq_false_iff.mpr this
    rcases List.mem_append.mp hv with hv1 | hv1 <;>
      rcases List.mem_map.mp hv1 with ⟨⟨q, e2⟩, hre, rfl⟩
    · refine ⟨hlab q e2 (hrne _ (List.mem_append.mpr (Or.inl hre))), ?_⟩
      intro id hid hc
      exact hbefore ⟨q, e2⟩ hre id (presentIds_trace_sub t q e2 id hid)
        (presentIds_trace_sub t r e id (mem_presentIds_of_rIds hc))
    · refine ⟨hlab q e2 (hrne _ (List.mem_append.mpr (Or.inr hre))), ?_⟩
      intro id hid hc
      exact hafter ⟨q, e2⟩ hre id
        (presentIds_trace_sub t r e id (mem_presentIds_of_rIds hc))
        (presentIds_trace_sub t q e2 id hid)
  have h1 := nshuffle_total_congr r (l₁.map fun re => walk t re.1 0 [re])
    hσ hsep hothers
  have hσ2 : NShuffle ((l₁.map fun re => walk t re.1 0 [re])
      ++ walk t r 0 [(r, e)] :: (l₂.map fun re => walk t re.1 0 [re]))
      (scanMessages t (l₁ ++ (r, e) :: l₂)) := by
    rw [← hts]
    exact nshuffle_flatten _
  have h2 := nshuffle_total_congr r (l₁.map fun re => walk t re.1 0 [re])
    hσ2 hsep hothers
  rw [getTotal_eq, getTotal_eq, h1,
    show scanRun t (l₁ ++ (r, e) :: l₂)
      = runAggregator (scanMessages t (l₁ ++ (r, e) :: l₂)) from rfl, h2]

def c3xA : FSEntry :=
  FSEntry.presentNoList (Metadata.mk false 4 4 (some (UniqueID.mk 1 1)))

def c3xB : FSEntry :=
  FSEntry.presentNoList (Metadata.mk false 5 5 (some (UniqueID.mk 2 2)))

theorem c3_amended_witness :
    getTotal (runAggregator
      (walk FilesizeType.ApparentSize ["b"] 0 [(["b"], c3xB)]
        ++ walk FilesizeType.ApparentSize ["a"] 0 [(["a"], c3xA)])) ["a"]
    = getTotal (scanRun FilesizeType.ApparentSize
        [(["a"], c3xA), (["b"], c3xB)]) ["a"] :=
  c3_totals_deterministic_when_roots_disjoint FilesizeType.ApparentSize
    [(["a"], c3xA), (["b"], c3xB)]
    (walk FilesizeType.ApparentSize ["b"] 0 [(["b"], c3xB)]
      ++ walk FilesizeType.ApparentSize ["a"] 0 [(["a"], c3xA)])
    ["a"] c3xA (by decide)
    (by
      refine List.Pairwise.cons ?_ (List.pairwise_singleton _ _)
      intro y hy
      rw [List.mem_singleton.mp hy]
      decide)
    (List.mem_cons_self _ _)
    (NShuffle.cons
      (shuffle_append_right
        (walk FilesizeType.ApparentSize ["a"] 0 [(["a"], c3xA)])
        (walk FilesizeType.ApparentSize ["b"] 0 [(["b"], c3xB)]))
      (NShuffle.cons
        (shuffle_append_right
          (walk FilesizeType.ApparentSize ["b"] 0 [(["b"], c3xB)]) [])
        NShuffle.nil))

def c3sharedMeta : Metadata := Metadata.mk false 7 7 (some (UniqueID.mk 1 5))

def c3Roots : List (FsPath × FSEntry) :=
  [(["a"], FSEntry.presentNoList c3sharedMeta),
   (["b"], FSEntry.presentNoList c3sharedMeta)]

def c3TrA : List Message :=
  walk FilesizeType.DiskUsage ["a"] 0
    [(["a"], FSEntry.presentNoList c3sharedMeta)]

def c3TrB : List Message :=
  walk FilesizeType.DiskUsage ["b"] 0
    [(["b"], FSEntry.presentNoList c3sharedMeta)]

/-- C3 is false as stated: for an unmodified filesystem in which the two
roots are hard links to the same inode, two valid interleavings of the
very same scan's per-root traces disagree on root A's total (the shared
inode's size is credited to whichever root's message arrives first), so
per-root totals are NOT independent of channel interleaving. -/
theorem c3_counterexample :
    NShuffle (scanTraces FilesizeType.DiskUsage c3Roots) (c3TrA ++ c3TrB)
    ∧ NShuffle (scanTraces FilesizeType.DiskUsage c3Roots) (c3TrB ++ c3TrA)
    ∧ getTotal (runAggregator (c3TrA ++ c3TrB)) ["a"]
        ≠ getTotal (runAggregator (c3TrB ++ c3TrA)) ["a"] := by
  refine ⟨?_, ?_, by decide⟩
  · exact NShuffle.cons (shuffle_append_left c3TrA c3TrB)
      (NShuffle.cons (shuffle_append_right c3TrB []) NShuffle.nil)
  · exact NShuffle.cons (shuffle_append_right c3TrA c3TrB)
      (NShuffle.cons (shuffle_append_right c3TrB []) NShuffle.nil)

theorem c5_witness :
    walkEntry FilesizeType.ApparentSize ["r"] ["r", "d"]
        (FSEntry.presentNoList (Metadata.mk true 6 12 none))
      = [Message.SizeEntry
           (generate_unique_id (Metadata.mk true 6 12 none)) ["r"]
           (FilesizeType.ApparentSize.size (Metadata.mk true 6 12 none)),
         Message.Error (Error.CouldNotReadDir ["r", "d"])]
    ∧ (walkEntry FilesizeType.ApparentSize ["r"] ["r", "d"]
        (FSEntry.presentNoList (Metadata.mk true 6 12 none))).count
        (Message.Error (Error.CouldNotReadDir ["r", "d"])) = 1
    ∧ getTotal (runAggregator (walk FilesizeType.ApparentSize ["r"] 0
        [(["r"], FSEntry.presentNoList (Metadata.mk true 6 12 none))])) ["r"]
      = FilesizeType.ApparentSize.size (Metadata.mk true 6 12 none) :=
  c5_unreadable_dir FilesizeType.ApparentSize ["r"] ["r", "d"]
    (Metadata.mk true 6 12 none) rfl

end Diskus
